import Mathlib

/-!
# Verification of the TAML C implementation

A shallow embedding of the TAML reference implementation (`src/C`): the value
model (`value.c`), the structural parser (`parser.c`), the serializer
(`serializer.c`) and the validator (`validator.c`), together with theorems
settling the specification claims about them.

Strings from the C sources are modelled as `List Char`; `char **lines` arrays
are modelled as lists; machine integers (`long long`) as `Int`; `double` as
`ℚ` (the IEEE behaviour of `%g`/`atof` is not modelled -- no theorem below
depends on the float branches beyond the variant tag).
-/

namespace Taml

/-- A source or kept line, as the C code sees it after `strtok`. -/
abbrev Line := List Char

/-- C `isspace` over the default locale: space, tab, newline, vertical tab,
form feed, carriage return. -/
def isspaceC (c : Char) : Bool :=
  c = ' ' || c = '\t' || c = '\n' || c = '\x0b' || c = '\x0c' || c = '\r'

/-- `count_leading_tabs` (parser.c:71, validator.c:47): number of leading
tab characters. -/
def count_leading_tabs (l : Line) : Nat :=
  (l.takeWhile (fun c => c = '\t')).length

/-- `has_tab_in_content` (parser.c:80): `strchr(str, TAB) != NULL`. -/
def has_tab_in_content (l : Line) : Bool :=
  l.contains '\t'

/-- `trim_trailing_whitespace` (parser.c:85): walks `end` back from the last
character while `end > str` and `isspace(*end)`; because the walk stops at
`end > str`, the first character is never removed, so a non-empty string
always trims to a non-empty string. -/
def trim_trailing_whitespace : Line → Line
  | [] => []
  | c :: rest => c :: ((rest.reverse.dropWhile isspaceC).reverse)

/-- Scan loop of `is_numeric` (parser.c:50-60): digits and at most one dot,
tracking `has_dot` and `has_digit`. -/
def numScan : Line → Bool → Bool → Bool
  | [], _, has_digit => has_digit
  | c :: rest, has_dot, has_digit =>
    if c.isDigit then numScan rest has_dot true
    else if c = '.' then
      if has_dot then false else numScan rest true has_digit
    else false

/-- `is_numeric` (parser.c:40): optional leading sign, then any mix of digits
and at most one `.`, requiring at least one digit.  Note it accepts forms
such as `1.` and `.5`. -/
def is_numeric (l : Line) : Bool :=
  match l with
  | [] => false
  | c :: rest =>
    if c = '+' || c = '-' then numScan rest false false
    else numScan (c :: rest) false false

/-- `is_boolean` (parser.c:66). -/
def is_boolean (l : Line) : Bool :=
  l = "true".toList || l = "false".toList

/-- Value of a digit string (most significant first), used to model
`atoll`/`atof`. -/
def natVal (ds : Line) : Nat :=
  ds.foldl (fun a c => a * 10 + (c.toNat - '0'.toNat)) 0

/-- Models C `atoll`: skip leading whitespace, optional sign, then the
leading run of digits (the `long long` overflow behaviour is not modelled;
values are unbounded integers). -/
def atoll (l : Line) : Int :=
  let l₁ := l.dropWhile isspaceC
  match l₁ with
  | '-' :: r => -(natVal (r.takeWhile Char.isDigit) : Int)
  | '+' :: r => (natVal (r.takeWhile Char.isDigit) : Int)
  | _ => (natVal (l₁.takeWhile Char.isDigit) : Int)

/-- Fractional value of a digit run: `digits / 10^len`. -/
def fracVal (ds : Line) : ℚ :=
  (natVal ds : ℚ) / (10 ^ ds.length : ℚ)

/-- Models C `atof` on the sign-digits-dot-digits strings `convert_value`
feeds it, as an exact rational (IEEE double rounding is not modelled). -/
def atof (l : Line) : ℚ :=
  let l₁ := l.dropWhile isspaceC
  let signed : Bool × Line :=
    match l₁ with
    | '-' :: r => (true, r)
    | '+' :: r => (false, r)
    | _ => (false, l₁)
  let ip := signed.2.takeWhile Char.isDigit
  let rest := signed.2.dropWhile Char.isDigit
  let fp :=
    match rest with
    | '.' :: r => r.takeWhile Char.isDigit
    | _ => []
  let mag : ℚ := (natVal ip : ℚ) + fracVal fp
  if signed.1 then -mag else mag

/-! ## The value model (taml.h, value.c)

`taml_value_t` is a tagged union; objects are singly linked `taml_pair_t`
lists, arrays singly linked `taml_array_item_t` lists.  The `count` fields
always equal the list lengths (both are only updated together), so they are
not modelled separately. -/

/-- `taml_value_t` (taml.h:57).  `double float_val` is modelled as `ℚ`. -/
inductive Value where
  | null : Value
  | bool (b : Bool) : Value
  | int (n : Int) : Value
  | float (q : ℚ) : Value
  | str (s : Line) : Value
  | obj (pairs : List (Line × Value)) : Value
  | arr (items : List Value) : Value

/-- `taml_type_t` (taml.h:41). -/
inductive TType where
  | tNull : TType
  | tBool : TType
  | tInt : TType
  | tFloat : TType
  | tString : TType
  | tObject : TType
  | tArray : TType
deriving DecidableEq

/-- The `type` field of a `taml_value_t`. -/
def typeOf : Value → TType
  | .null => .tNull
  | .bool _ => .tBool
  | .int _ => .tInt
  | .float _ => .tFloat
  | .str _ => .tString
  | .obj _ => .tObject
  | .arr _ => .tArray

/-- Lookup walk of `taml_object_get` (value.c:107-113): first pair whose key
compares equal. -/
def lookupPairs : List (Line × Value) → Line → Option Value
  | [], _ => none
  | (k, v) :: rest, key => if k = key then some v else lookupPairs rest key

/-- `taml_object_get` (value.c:103): `NULL` unless the receiver is an object
holding the key. -/
def taml_object_get (v : Value) (key : Line) : Option Value :=
  match v with
  | .obj pairs => lookupPairs pairs key
  | _ => none

/-- Key-membership test used by `taml_object_set`'s first loop. -/
def containsKey (pairs : List (Line × Value)) (key : Line) : Bool :=
  (lookupPairs pairs key).isSome

/-- In-place update of the first pair holding `key` (value.c:124-135). -/
def replacePairs : List (Line × Value) → Line → Value → List (Line × Value)
  | [], _, _ => []
  | (k, v) :: rest, key, w =>
    if k = key then (k, w) :: rest else (k, v) :: replacePairs rest key w

/-- `taml_object_set` (value.c:119) at the pair-list level: an existing key
is updated in place; a new key is PREPENDED to the head of the list
(value.c:148-149), which is why iteration order is the reverse of insertion
order. -/
def objectSetPairs (pairs : List (Line × Value)) (key : Line) (w : Value) :
    List (Line × Value) :=
  if containsKey pairs key then replacePairs pairs key w
  else (key, w) :: pairs

/-- Walk of `taml_array_get` (value.c:168-175): advance `index` nodes, then
return that node's value or `NULL` past the end. -/
def arrGetItems : List Value → Nat → Option Value
  | [], _ => none
  | x :: _, 0 => some x
  | _ :: rest, n + 1 => arrGetItems rest n

/-- `taml_array_get` (value.c:164): `NULL` unless the receiver is an array
and the index is within the item list. -/
def taml_array_get (v : Value) (index : Nat) : Option Value :=
  match v with
  | .arr items => arrGetItems items index
  | _ => none

/-- `taml_array_size` (value.c:156): the `count` field, which equals the
item-list length. -/
def taml_array_size (v : Value) : Nat :=
  match v with
  | .arr items => items.length
  | _ => 0

/-- `taml_array_append` (value.c:179): appends at the tail. -/
def arrayAppendItems (items : List Value) (w : Value) : List Value :=
  items ++ [w]

/-! ## Scalar conversion (parser.c `convert_value`) -/

/-- `convert_value` (parser.c:96): `~` to null, the two-character literal
`""` to the empty string, then under `type_conversion` the booleans and
`is_numeric` strings (float when a dot is present, int otherwise), else
the string verbatim. -/
def convert_value (s : Line) (conv : Bool) : Value :=
  if s = "~".toList then .null
  else if s = "\"\"".toList then .str []
  else if conv && is_boolean s then .bool (s = "true".toList)
  else if conv && is_numeric s then
    if s.contains '.' then .float (atof s) else .int (atoll s)
  else .str s

/-! ## Line splitting (parser.c:357-386, validator.c:171-204)

Both entry points copy the text and cut it with `strtok(..., "\n")`, which
skips runs of the delimiter: empty lines never appear as tokens.  The parser
additionally drops comment lines and lines that are blank after their
leading tabs; the validator keeps them as tokens. -/

/-- Split on `'\n'`, keeping empty pieces (the raw source lines). -/
def splitNl : List Char → List Line
  | [] => [[]]
  | c :: rest =>
    if c = '\n' then [] :: splitNl rest
    else
      match splitNl rest with
      | [] => [[c]]
      | l :: ls => (c :: l) :: ls

/-- The `strtok` token sequence: source lines with the empty ones dropped. -/
def tokensOf (text : List Char) : List Line :=
  (splitNl text).filter (fun l => !l.isEmpty)

/-- The parser's keep test (parser.c:379-384): after skipping leading tabs
the line must be non-empty and not start with `#`. -/
def keptLine (l : Line) : Bool :=
  match l.dropWhile (fun c => c = '\t') with
  | [] => false
  | c :: _ => c ≠ '#'

/-- The kept-line array `lines[]` the structural parser receives. -/
def keptOf (text : List Char) : List Line :=
  (tokensOf text).filter keptLine

/-! ## The structural parser (parser.c `parse_lines`, `taml_parse`) -/

/-- The two diagnostics `parse_lines` can record: the indentation error of
parser.c:160-164 and the key-tab error of parser.c:298-303. -/
inductive PErr where
  | invalidIndent : PErr
  | tabInKey : PErr
deriving DecidableEq

/-- The mutable parser state threaded through `parse_lines`: the options and
the diagnostic slot (`error_msg`/`error_line` are always written together,
and each write overwrites the previous one). -/
structure PState where
  strict : Bool
  conv : Bool
  err : Option (PErr × Nat)

/-- Error recording of parser.c:160-164: only in strict mode; the recorded
line number is `i + 1` where `i` indexes the kept-line array. -/
def recordIndentErr (st : PState) (n : Nat) : PState :=
  if st.strict then { st with err := some (.invalidIndent, n + 1) } else st

/-- Error recording of parser.c:298-303. -/
def recordKeyErr (st : PState) (n : Nat) : PState :=
  { st with err := some (.tabInKey, n + 1) }

/-- `strchr(content, TAB)` followed by splitting at that tab: the content
before the first tab and the content after it, or `none` when the line has
no tab. -/
def splitAtFirstTab : Line → Option (Line × Line)
  | [] => none
  | c :: rest =>
    if c = '\t' then some ([], rest)
    else (splitAtFirstTab rest).map (fun q => (c :: q.1, q.2))

/-- Is this kept line strictly deeper than `d` leading tabs? -/
def isDeeper (d : Nat) (kl : Nat × Line) : Bool :=
  decide (d < count_leading_tabs kl.2)

/-- The child lookahead shared by both loops of `parse_lines`
(parser.c:177-191 and 220-235): walk forward; a line at `indent + 1` means
children, a line at `indent` or shallower ends the search. -/
def hasChildAt : List (Nat × Line) → Nat → Bool
  | [], _ => false
  | (_, l) :: rest, indent =>
    let ci := count_leading_tabs l
    if ci ≤ indent then false
    else if ci = indent + 1 then true
    else hasChildAt rest indent

/-- The array/object determination loop of parser.c:149-195: the band is an
object as soon as a line at the band depth has a tab separator or nested
children; bad-indent lines are errored (strict) and skipped; reaching the
band end without such evidence leaves `is_array` true. -/
def scanBand : List (Nat × Line) → Int → PState → Bool × PState
  | [], _, st => (true, st)
  | (n, l) :: rest, p, st =>
    let indent := count_leading_tabs l
    if (indent : Int) ≤ p then (true, st)
    else if (indent : Int) ≠ p + 1 then
      scanBand rest p (recordIndentErr st n)
    else
      let content := l.drop indent
      if content.contains '\t' then (false, st)
      else if hasChildAt rest indent then (false, st)
      else scanBand rest p st

mutual

/-- `parse_lines` (parser.c:141): empty range gives `NULL`; otherwise the
determination loop runs, then the matching build loop, producing an array
or an object node. -/
def parse_lines (ls : List (Nat × Line)) (p : Int) (st : PState) :
    Option Value × PState :=
  match ls with
  | [] => (none, st)
  | x :: xs =>
    let sres := scanBand (x :: xs) p st
    if sres.1 then
      let bres := buildArr (x :: xs) p sres.2
      (some (.arr bres.1), bres.2)
    else
      let bres := buildObj (x :: xs) p sres.2 []
      (some (.obj bres.1), bres.2)
termination_by (ls.length, 1)
decreasing_by
all_goals simp_wf
all_goals apply Prod.Lex.right
all_goals omega

/-- The array build loop of parser.c:198-262: leaves are converted scalar
content; an item with children is parsed recursively from the first line at
`indent + 1` (deeper garbage between is skipped silently) up to the next
line at `indent` or shallower. -/
def buildArr (ls : List (Nat × Line)) (p : Int) (st : PState) :
    List Value × PState :=
  match ls with
  | [] => ([], st)
  | (_, l) :: rest =>
    let indent := count_leading_tabs l
    if (indent : Int) ≤ p then ([], st)
    else if (indent : Int) ≠ p + 1 then buildArr rest p st
    else
      let content := trim_trailing_whitespace (l.drop indent)
      if hasChildAt rest indent then
        let rest₂ := rest.dropWhile (isDeeper (indent + 1))
        let childLines := rest₂.takeWhile (isDeeper indent)
        let cont := rest₂.dropWhile (isDeeper indent)
        let cres := parse_lines childLines (indent : Int) st
        let bres := buildArr cont p cres.2
        ((match cres.1 with
          | some c => c :: bres.1
          | none => bres.1), bres.2)
      else
        let v := convert_value content st.conv
        let bres := buildArr rest p st
        (v :: bres.1, bres.2)
termination_by (ls.length, 0)
decreasing_by
all_goals simp_wf
all_goals apply Prod.Lex.left
all_goals
  have h₁ := (List.takeWhile_prefix
    (l := rest) (isDeeper (count_leading_tabs l))).length_le
  have h₂ := (List.dropWhile_suffix
    (l := rest) (isDeeper (count_leading_tabs l))).length_le
  have h₃ := (List.dropWhile_suffix
    (l := rest) (isDeeper (count_leading_tabs l + 1))).length_le
  have h₄ := (List.takeWhile_prefix
    (l := rest.dropWhile (isDeeper (count_leading_tabs l + 1)))
    (isDeeper (count_leading_tabs l))).length_le
  have h₅ := (List.dropWhile_suffix
    (l := rest.dropWhile (isDeeper (count_leading_tabs l + 1)))
    (isDeeper (count_leading_tabs l))).length_le
  omega

/-- The object build loop of parser.c:263-336, with the `taml_object_set`
calls folded into an accumulator (`taml_create_object` starts it empty): a
tab line stores the converted value under the trimmed key; a bare line is a
parent key whose child band (up to the next line at `indent` or shallower)
is parsed recursively and stored when non-`NULL`. -/
def buildObj (ls : List (Nat × Line)) (p : Int) (st : PState)
    (acc : List (Line × Value)) : List (Line × Value) × PState :=
  match ls with
  | [] => (acc, st)
  | (n, l) :: rest =>
    let indent := count_leading_tabs l
    if (indent : Int) ≤ p then (acc, st)
    else if (indent : Int) ≠ p + 1 then buildObj rest p st acc
    else
      let content := l.drop indent
      match splitAtFirstTab content with
      | some kv =>
        let key := trim_trailing_whitespace kv.1
        let valueStr := trim_trailing_whitespace
          (kv.2.dropWhile (fun c => c = '\t'))
        if st.strict && has_tab_in_content key then
          buildObj rest p (recordKeyErr st n) acc
        else
          let v := convert_value valueStr st.conv
          buildObj rest p st (objectSetPairs acc key v)
      | none =>
        let key := trim_trailing_whitespace content
        let childLines := rest.takeWhile (isDeeper indent)
        let cont := rest.dropWhile (isDeeper indent)
        let cres := parse_lines childLines (indent : Int) st
        let acc₁ :=
          match cres.1 with
          | some c => objectSetPairs acc key c
          | none => acc
        buildObj cont p cres.2 acc₁
termination_by (ls.length, 0)
decreasing_by
all_goals simp_wf
all_goals first
  | (apply Prod.Lex.right; omega)
  | (apply Prod.Lex.left
     have h₁ := (List.takeWhile_prefix
       (l := rest) (isDeeper (count_leading_tabs l))).length_le
     have h₂ := (List.dropWhile_suffix
       (l := rest) (isDeeper (count_leading_tabs l))).length_le
     omega)

end

/-- `taml_document_t` (taml.h:93): the root plus the diagnostic slot
(`error_message`/`error_line`, `none` when the message is `NULL` and the
line 0). -/
structure Document where
  root : Option Value
  err : Option (PErr × Nat)

/-- `taml_parse` (parser.c:342): split into kept lines, parse the whole
range at parent depth -1, and package root and diagnostic.  `options ==
NULL` corresponds to `strict := false, conv := true`. -/
def taml_parse (text : List Char) (strict conv : Bool) : Document :=
  let res := parse_lines (keptOf text).enum (-1) ⟨strict, conv, none⟩
  ⟨res.1, res.2.err⟩

/-! ## The validator (validator.c) -/

/-- The validator's error kinds (taml.h:25, as produced by validator.c). -/
inductive VErr where
  | invalidIndentation : VErr
  | mixedIndent : VErr
  | inconsistentIndent : VErr
  | orphanedLine : VErr
  | emptyKey : VErr
  | invalidTabInKey : VErr
  | invalidTabInValue : VErr
deriving DecidableEq

/-- `has_leading_spaces` (validator.c:25): the first character is a space. -/
def has_leading_spaces (l : Line) : Bool :=
  l.head? = some ' '

/-- `has_mixed_indent` (validator.c:31): the leading run of spaces and tabs
contains both. -/
def has_mixed_indent (l : Line) : Bool :=
  let ind := l.takeWhile (fun c => c = ' ' || c = '\t')
  ind.contains ' ' && ind.contains '\t'

/-- `validate_line` (validator.c:61): skips blank and comment lines, then
checks, in priority order, leading spaces, mixed indentation, an indent
jump past `prev + 1`, the orphan condition (deeper than the previous
state-carrying line while that line HAD a same-line value), an empty line
after the tabs, and the key/value tab rules. -/
def validate_line (l : Line) (prev : Int) (had : Bool) : Option VErr :=
  if l.isEmpty then none
  else if (l.dropWhile (fun c => c = '\t')).head? = some '#' then none
  else if has_leading_spaces l then some .invalidIndentation
  else if has_mixed_indent l then some .mixedIndent
  else
    let indent := count_leading_tabs l
    if (indent : Int) > prev + 1 then some .inconsistentIndent
    else if decide ((indent : Int) > prev) && had then some .orphanedLine
    else
      let content := l.drop indent
      if content.isEmpty then some .emptyKey
      else
        match splitAtFirstTab content with
        | none => none
        | some kv =>
          if kv.1.isEmpty then some .emptyKey
          else if has_tab_in_content kv.1 then some .invalidTabInKey
          else
            let value := kv.2.dropWhile (fun c => c = '\t')
            if has_tab_in_content value then some .invalidTabInValue
            else none

/-- The token loop of `taml_validate` (validator.c:180-204): `line_num`
counts `strtok` tokens (so blank source lines are not counted), and the
`(prev_indent, prev_had_value)` state is updated only by lines whose
content after the tabs is non-empty and not a comment. -/
def validateLoop : List Line → Nat → Int → Bool → Option (VErr × Nat)
  | [], _, _, _ => none
  | l :: rest, n, prev, had =>
    match validate_line l prev had with
    | some e => some (e, n + 1)
    | none =>
      match l.dropWhile (fun c => c = '\t') with
      | [] => validateLoop rest (n + 1) prev had
      | c :: t =>
        if c = '#' then validateLoop rest (n + 1) prev had
        else validateLoop rest (n + 1) (count_leading_tabs l)
          ((c :: t).contains '\t')

/-- `taml_validate` (validator.c:167): `none` is `TAML_OK`; otherwise the
first violation with the 1-based token number it was found at. -/
def taml_validate (text : List Char) : Option (VErr × Nat) :=
  validateLoop (tokensOf text) 0 (-1) false

/-! ## The serializer (serializer.c) -/

/-- A decimal digit character. -/
def decDigit (d : Nat) : Char :=
  Char.ofNat (48 + d)

/-- Decimal digits of a natural number, most significant first (the
`%lld` rendering of serializer.c:122 for non-negative values). -/
def natDigits (n : Nat) : List Char :=
  if n < 10 then [decDigit n]
  else natDigits (n / 10) ++ [decDigit (n % 10)]
termination_by n
decreasing_by
exact Nat.div_lt_self (by omega) (by omega)

/-- `snprintf "%lld"`: minus sign for negatives, then the decimal digits. -/
def serializeInt (n : Int) : List Char :=
  if n < 0 then '-' :: natDigits (-n).toNat else natDigits n.toNat

/-- The C prints floats with `snprintf "%g"` (serializer.c:128); that IEEE
double formatting is not modelled.  The rational payload is printed in an
unspecified but fixed way; no theorem below depends on this branch beyond
the variant tag. -/
def serializeFloat (q : ℚ) : List Char :=
  (toString q).toList

/-- `sb_append_indent` (serializer.c:96): `level` tab characters. -/
def indentChars (d : Nat) : List Char :=
  List.replicate d '\t'

mutual

/-- `serialize_value` (serializer.c:109): scalars by their literal forms
(empty string as the two-character sentinel `""`), containers by their
line-emitting loops.  `pair->value`/`item->value` are never `NULL` in this
model, so the C's null-pointer guards have no counterpart. -/
def serialize_value : Value → Nat → List Char
  | .null, _ => "~".toList
  | .bool b, _ => if b then "true".toList else "false".toList
  | .int n, _ => serializeInt n
  | .float q, _ => serializeFloat q
  | .str s, _ => if s.isEmpty then "\"\"".toList else s
  | .obj pairs, d => serializeObj pairs d
  | .arr items, d => serializeArr items d

/-- The object loop of serializer.c:144-164: indent, key, then either a
newline and the nested container one level deeper, or a tab, the scalar
and a newline. -/
def serializeObj : List (Line × Value) → Nat → List Char
  | [], _ => []
  | (k, v) :: rest, d =>
    let piece :=
      match v with
      | .obj _ => '\n' :: serialize_value v (d + 1)
      | .arr _ => '\n' :: serialize_value v (d + 1)
      | _ => '\t' :: (serialize_value v d ++ ['\n'])
    indentChars d ++ k ++ piece ++ serializeObj rest d

/-- The array loop of serializer.c:171-186: indent, then either the nested
container one level deeper (which emits its own lines) or the scalar and a
newline. -/
def serializeArr : List Value → Nat → List Char
  | [], _ => []
  | v :: rest, d =>
    let piece :=
      match v with
      | .obj _ => serialize_value v (d + 1)
      | .arr _ => serialize_value v (d + 1)
      | _ => serialize_value v d ++ ['\n']
    indentChars d ++ piece ++ serializeArr rest d

end

/-- `taml_stringify_value` (serializer.c:216) with `options == NULL`
(starting indent level 0). -/
def taml_stringify_value (v : Value) : List Char :=
  serialize_value v 0

/-! ## Spec-side and proof-support definitions -/

/-- The SPEC's numeric pattern, written from the spec's words (§4.2):
`[+-]?digit+('.'digit+)?` -- digits required on BOTH sides of the dot.
Used only to compare the spec's rule with the code's `is_numeric`. -/
def specNumeric (l : Line) : Bool :=
  let l₁ :=
    match l with
    | c :: rest => if c = '+' || c = '-' then rest else l
    | [] => l
  let ds := l₁.takeWhile Char.isDigit
  let r := l₁.dropWhile Char.isDigit
  !ds.isEmpty &&
    (r.isEmpty ||
      (match r with
       | '.' :: r₂ => !r₂.isEmpty && r₂.all Char.isDigit
       | _ => false))

/-- Content after the leading tabs contains a tab separator: the
`prev_had_value` update of validator.c:199. -/
def contentHasTab (l : Line) : Bool :=
  (l.dropWhile (fun c => c = '\t')).contains '\t'

/-- The pairwise facts the validator guarantees about the kept-line
sequence when it accepts: walking with the `(prev_indent, prev_had_value)`
state, each line is at most one level deeper than the previous
state-carrying line, and one level deeper only if that line carried no
same-line value. -/
def chainOK : Int → Bool → List Line → Prop
  | _, _, [] => True
  | prev, had, l :: rest =>
    (count_leading_tabs l : Int) ≤ prev + 1 ∧
    ((count_leading_tabs l : Int) > prev → had = false) ∧
    chainOK (count_leading_tabs l) (contentHasTab l) rest

/-- The pairwise fact between consecutive kept lines that validator
acceptance guarantees, phrased on the indexed lines the parser walks: at
most one level deeper, and exactly one level deeper only after a line
whose content carries no tab separator. -/
def stepOK (x y : Nat × Line) : Prop :=
  (count_leading_tabs y.2 : Int) ≤ count_leading_tabs x.2 + 1 ∧
  (count_leading_tabs y.2 = count_leading_tabs x.2 + 1 →
    contentHasTab x.2 = false)

/-- The head of a band slice is at most one level below the parent. -/
def headLe : List (Nat × Line) → Int → Prop
  | [], _ => True
  | y :: _, p => (count_leading_tabs y.2 : Int) ≤ p + 1

/-- Scalar (non-container) values. -/
def isScalar : Value → Bool
  | .obj _ => false
  | .arr _ => false
  | _ => true

mutual

/-- Every array node in the tree holds only scalar leaves. -/
def arraysScalarOnly : Value → Bool
  | .obj ps => pairsArraysScalar ps
  | .arr its => itemsAllScalar its
  | _ => true

def pairsArraysScalar : List (Line × Value) → Bool
  | [] => true
  | (_, v) :: r => arraysScalarOnly v && pairsArraysScalar r

def itemsAllScalar : List Value → Bool
  | [] => true
  | v :: r => isScalar v && itemsAllScalar r

end

mutual

/-- Deep object-order reversal: what one serialize/parse round trip does to
a tree, because `taml_object_set` prepends new keys while the serializer
walks the pair list front to back. -/
def revObj : Value → Value
  | .obj ps => .obj (revPairs ps).reverse
  | .arr its => .arr (revItems its)
  | .null => .null
  | .bool b => .bool b
  | .int n => .int n
  | .float q => .float q
  | .str s => .str s

def revPairs : List (Line × Value) → List (Line × Value)
  | [] => []
  | (k, v) :: r => (k, revObj v) :: revPairs r

def revItems : List Value → List Value
  | [] => []
  | v :: r => revObj v :: revItems r

end

/-- Distinct keys, via the same comparison `taml_object_set` uses. -/
def keysDistinct : List (Line × Value) → Bool
  | [] => true
  | (k, _) :: rest => !containsKey rest k && keysDistinct rest

/-- A key that survives the parser's key handling verbatim: non-empty, no
tab or newline, not opening a comment, and invariant under the code's
trailing-whitespace trim. -/
def wfKey (k : Line) : Bool :=
  !k.isEmpty && !k.contains '\t' && !k.contains '\n' &&
    !(k.head? = some '#') && decide (k = trim_trailing_whitespace k)

/-- A string leaf that survives one serialize/parse round trip verbatim:
either empty (round-tripped through the `""` sentinel) or free of the
sentinel forms, the boolean words, the code's numeric forms, tabs,
newlines, a leading `#`, and trailing whitespace. -/
def wfStr (s : Line) : Bool :=
  s.isEmpty ||
  (!(s = "~".toList) && !(s = "\"\"".toList) &&
   !(s = "true".toList) && !(s = "false".toList) &&
   !is_numeric s && !s.contains '\t' && !s.contains '\n' &&
   !(s.head? = some '#') && decide (s = trim_trailing_whitespace s))

/-- Scalar leaves whose serialized form parses back to the same value under
default options (floats are excluded: their `%g` formatting is not
modelled and is not exact). -/
def wfScalar : Value → Bool
  | .null => true
  | .bool _ => true
  | .int _ => true
  | .float _ => false
  | .str s => wfStr s
  | .obj _ => false
  | .arr _ => false

mutual

/-- Round-trippable trees: non-empty containers, well-formed distinct keys,
object values either well-formed scalars or nested well-formed containers,
and arrays of well-formed scalar leaves only. -/
def wfValue : Value → Bool
  | .obj pairs => !pairs.isEmpty && keysDistinct pairs && wfPairs pairs
  | .arr items => !items.isEmpty && wfItems items
  | _ => false

def wfPairs : List (Line × Value) → Bool
  | [] => true
  | (k, v) :: rest =>
    wfKey k && (wfScalar v || wfValue v) && wfPairs rest

def wfItems : List Value → Bool
  | [] => true
  | v :: rest => wfScalar v && wfItems rest

end

mutual

/-- The serialized text of a container, as the list of lines the serializer
emits (each without its trailing newline).  `joinLines` of this equals
`serialize_value`. -/
def valLines : Value → Nat → List Line
  | .obj ps, d => objLines ps d
  | .arr its, d => arrLines its d
  | _, _ => []

def objLines : List (Line × Value) → Nat → List Line
  | [], _ => []
  | (k, v) :: rest, d =>
    (match v with
     | .obj _ => (indentChars d ++ k) :: valLines v (d + 1)
     | .arr _ => (indentChars d ++ k) :: valLines v (d + 1)
     | _ => [indentChars d ++ k ++ '\t' :: serialize_value v d]) ++
    objLines rest d

def arrLines : List Value → Nat → List Line
  | [], _ => []
  | v :: rest, d =>
    (match v with
     | .obj _ => valLines v (d + 1)
     | .arr _ => valLines v (d + 1)
     | _ => [indentChars d ++ serialize_value v d]) ++
    arrLines rest d

end

/-- Concatenate lines, terminating each with a newline. -/
def joinLines : List Line → List Char
  | [] => []
  | l :: rest => l ++ '\n' :: joinLines rest

mutual

/-- Size measure for inductions over the nested value tree. -/
def sizeV : Value → Nat
  | .obj ps => 1 + sizePairs ps
  | .arr its => 1 + sizeItems its
  | _ => 1

def sizePairs : List (Line × Value) → Nat
  | [] => 0
  | (_, v) :: r => 1 + sizeV v + sizePairs r

def sizeItems : List Value → Nat
  | [] => 0
  | v :: r => 1 + sizeV v + sizeItems r

end

/-! ## Helper lemmas -/

/-- Replacing a value never changes which keys an object holds. -/
theorem containsKey_replace (ps : List (Line × Value)) (k k₂ : Line)
    (v : Value) :
    containsKey (replacePairs ps k v) k₂ = containsKey ps k₂ := by
  induction ps with
  | nil => rfl
  | cons p rest ih =>
    obtain ⟨k₁, v₁⟩ := p
    by_cases e : k₁ = k <;>
      simp [replacePairs, e, containsKey, lookupPairs] <;>
      split <;> simp_all [containsKey]

/-- Replacing a value keeps the key list, in order. -/
theorem replace_map_fst (ps : List (Line × Value)) (k : Line) (v : Value) :
    (replacePairs ps k v).map Prod.fst = ps.map Prod.fst := by
  induction ps with
  | nil => rfl
  | cons p rest ih =>
    obtain ⟨k₁, v₁⟩ := p
    by_cases e : k₁ = k <;> simp [replacePairs, e, ih]

/-- Replacing a value keeps the pair count. -/
theorem replace_length (ps : List (Line × Value)) (k : Line) (v : Value) :
    (replacePairs ps k v).length = ps.length := by
  have h := congrArg List.length (replace_map_fst ps k v)
  simpa using h

/-- Looking up the replaced key finds the new value. -/
theorem lookup_replace_self (ps : List (Line × Value)) (k : Line) (v : Value)
    (h : containsKey ps k = true) :
    lookupPairs (replacePairs ps k v) k = some v := by
  induction ps with
  | nil => simp [containsKey, lookupPairs] at h
  | cons p rest ih =>
    obtain ⟨k₁, v₁⟩ := p
    by_cases e : k₁ = k
    · simp [replacePairs, e, lookupPairs]
    · simp only [containsKey, lookupPairs, e, if_false] at h ⊢
      simp [replacePairs, e, lookupPairs, ih, h]
      exact ih h

/-- Looking up any other key is unaffected by a replacement. -/
theorem lookup_replace_other (ps : List (Line × Value)) (k k₂ : Line)
    (v : Value) (h : k₂ ≠ k) :
    lookupPairs (replacePairs ps k v) k₂ = lookupPairs ps k₂ := by
  induction ps with
  | nil => rfl
  | cons p rest ih =>
    obtain ⟨k₁, v₁⟩ := p
    by_cases e : k₁ = k
    · subst e
      have e₂ : k₁ ≠ k₂ := fun hh => h hh.symm
      simp [replacePairs, lookupPairs, e₂]
    · simp [replacePairs, e, lookupPairs, ih]

/-- Replacement preserves key distinctness verbatim. -/
theorem keysDistinct_replace (ps : List (Line × Value)) (k : Line)
    (v : Value) :
    keysDistinct (replacePairs ps k v) = keysDistinct ps := by
  induction ps with
  | nil => rfl
  | cons p rest ih =>
    obtain ⟨k₁, v₁⟩ := p
    by_cases e : k₁ = k
    · simp [replacePairs, e, keysDistinct]
    · simp [replacePairs, e, keysDistinct, containsKey_replace, ih]

/-- `taml_object_set` preserves key distinctness. -/
theorem keysDistinct_set (ps : List (Line × Value)) (k : Line) (v : Value)
    (h : keysDistinct ps = true) :
    keysDistinct (objectSetPairs ps k v) = true := by
  unfold objectSetPairs
  split
  · rw [keysDistinct_replace]; exact h
  · next hc => simp [keysDistinct, hc, h]

/-- The content after the leading tabs never starts with a tab:
`content = line + count_leading_tabs(line)` begins at the first non-tab
character, so the "tab at position 0 of the content" case of the spec is
unrealisable. -/
theorem dropTabsHeadNotTab (l : Line) :
    ¬((l.drop (count_leading_tabs l)).head? = some '\t') := by
  induction l with
  | nil => simp [count_leading_tabs]
  | cons c rest ih =>
    by_cases e : c = '\t'
    · simpa [count_leading_tabs, List.takeWhile_cons, e] using ih
    · simp [count_leading_tabs, List.takeWhile_cons, e]

/-! ## Claim theorems -/

/-- C3: evaluation at the failing input `"# c\na\n\t\t\tb\n"`.  The line at
depth 3 is the third source line (the comment is line 1 and `a` line 2),
but strict parsing records the diagnostic at line 2, because parser.c uses
`i + 1` where `i` indexes the compacted kept-line array -- the comment line
is not counted, contradicting the spec's rule that skipped lines count
toward diagnostic line numbers. -/
theorem c3_diagnostic_line_counts_only_kept_lines :
    (taml_parse "# c\na\n\t\t\tb\n".toList true true).err
      = some (.invalidIndent, 2) ∧
    (splitNl "# c\na\n\t\t\tb\n".toList).get? 1 = some "a".toList ∧
    (splitNl "# c\na\n\t\t\tb\n".toList).get? 2 = some "\t\t\tb".toList ∧
    keptOf "# c\na\n\t\t\tb\n".toList = ["a".toList, "\t\t\tb".toList] ∧
    count_leading_tabs "\t\t\tb".toList = 3 := by
  refine ⟨?_, by decide, by decide, by decide, by decide⟩
  simp +decide [taml_parse, keptOf, tokensOf, splitNl, keptLine, parse_lines,
    scanBand, buildArr, buildObj, count_leading_tabs, convert_value,
    trim_trailing_whitespace, splitAtFirstTab, hasChildAt, isDeeper,
    is_boolean, is_numeric, numScan, recordIndentErr, recordKeyErr, isspaceC,
    has_tab_in_content, objectSetPairs, containsKey, lookupPairs,
    replacePairs, List.enum]

/-- C4 counterexample: `"1."` and `".5"` do not match the spec's pattern
`[+-]?digit+('.'digit+)?` (digits are missing on one side of the dot), yet
`is_numeric` accepts them and `convert_value` coerces them to Float instead
of leaving them as verbatim strings as the claim requires. -/
theorem c4_counterexample :
    is_numeric "1.".toList = true ∧
    specNumeric "1.".toList = false ∧
    typeOf (convert_value "1.".toList true) = .tFloat ∧
    is_numeric ".5".toList = true ∧
    specNumeric ".5".toList = false ∧
    typeOf (convert_value ".5".toList true) = .tFloat := by
  refine ⟨by decide, by decide, ?_, by decide, by decide, ?_⟩ <;> rfl

/-- C4 amended: for raw leaf strings that are not `~`, `""`, `true` or
`false`, `convert_value` with type conversion yields Int or Float exactly
when `is_numeric` accepts the string -- optional sign, then a non-empty mix
of digits and at most one dot containing at least one digit (so `1.` and
`.5` count as numeric) -- Float when a dot is present and Int otherwise,
and the verbatim String in every other case. -/
theorem c4_coercion_follows_is_numeric (s : Line)
    (h1 : s ≠ "~".toList) (h2 : s ≠ "\"\"".toList)
    (h3 : s ≠ "true".toList) (h4 : s ≠ "false".toList) :
    convert_value s true =
      (if is_numeric s then
        (if s.contains '.' then .float (atof s) else .int (atoll s))
       else .str s) := by
  have h1' : s ≠ ['~'] := h1
  have h2' : s ≠ ['\"', '\"'] := h2
  have h3' : s ≠ ['t', 'r', 'u', 'e'] := h3
  have h4' : s ≠ ['f', 'a', 'l', 's', 'e'] := h4
  simp [convert_value, is_boolean, h1', h2', h3', h4']

/-- C4 witness: the amended coercion rule applied at `"12"`. -/
theorem c4_coercion_witness :
    convert_value "12".toList true =
      (if is_numeric "12".toList then
        (if "12".toList.contains '.' then .float (atof "12".toList)
         else .int (atoll "12".toList))
       else .str "12".toList) :=
  c4_coercion_follows_is_numeric "12".toList (by decide) (by decide)
    (by decide) (by decide)

/-- C5 counterexample: the line `" \tv"` has a whitespace-only key part
(which ordinary trimming would empty), yet strict-mode parse records NO
structural error and permissive mode does NOT skip the line -- both store
the value under the single-space key, because the code's trim never empties
a non-empty string. -/
theorem c5_counterexample :
    (taml_parse " \tv\n".toList true true).err = none ∧
    (taml_parse " \tv\n".toList true true).root
      = some (.obj [([' '], .str ['v'])]) ∧
    (taml_parse " \tv\n".toList false true).root
      = some (.obj [([' '], .str ['v'])]) ∧
    ([' '].all isspaceC) = true := by
  refine ⟨?_, ?_, ?_, by decide⟩ <;>
  simp +decide [taml_parse, keptOf, tokensOf, splitNl, keptLine, parse_lines,
    scanBand, buildArr, buildObj, count_leading_tabs, convert_value,
    trim_trailing_whitespace, splitAtFirstTab, hasChildAt, isDeeper,
    is_boolean, is_numeric, numScan, recordIndentErr, recordKeyErr, isspaceC,
    has_tab_in_content, objectSetPairs, containsKey, lookupPairs,
    replacePairs, List.enum]

/-- C5 amended: no line in an Object band can have an empty key under the
code's own operations -- the content after the indent never starts with a
tab, and `trim_trailing_whitespace` never empties a non-empty string -- and
a line whose key part is whitespace-only is handled as an ordinary pair in
both modes: no diagnostic, and the value stored under the untrimmed
whitespace key. -/
theorem c5_no_empty_key_possible :
    (∀ l : Line, l ≠ [] → trim_trailing_whitespace l ≠ []) ∧
    (∀ l : Line, ¬((l.drop (count_leading_tabs l)).head? = some '\t')) ∧
    (taml_parse " \tv\n".toList true true).err = none ∧
    (taml_parse " \tv\n".toList true true).root
      = some (.obj [([' '], .str ['v'])]) ∧
    (taml_parse " \tv\n".toList false true).root
      = some (.obj [([' '], .str ['v'])]) := by
  refine ⟨?_, dropTabsHeadNotTab, c5_counterexample.1, c5_counterexample.2.1,
    c5_counterexample.2.2.1⟩
  intro l h
  cases l with
  | nil => exact absurd rfl h
  | cons c rest => simp [trim_trailing_whitespace]

/-- C5 witness: the non-emptiness of trimming applied at the single-space
key part of the counterexample line. -/
theorem c5_no_empty_key_witness :
    trim_trailing_whitespace [' '] ≠ [] :=
  c5_no_empty_key_possible.1 [' '] (by decide)

/-- C7 counterexample: on `"a\tb\n\tc\n"` the validator reports
OrphanedLine at line 2 although the previous line `a\tb` DOES carry a
same-line value (it contains a tab separator) -- the opposite of the
claim's trigger, which requires the previous line to be an
indentation-increase target with no value of its own. -/
theorem c7_counterexample :
    taml_validate "a\tb\n\tc\n".toList = some (.orphanedLine, 2) ∧
    contentHasTab "a\tb".toList = true ∧
    (tokensOf "a\tb\n\tc\n".toList).get? 0 = some "a\tb".toList := by
  decide

/-- C7 amended: `validate_line` returns OrphanedLine exactly on a
non-skippable line that passes the leading-space, mixed-indent and
InconsistentIndent checks (in that priority order, OrphanedLine being the
check right after InconsistentIndent), whose depth strictly increased over
the previous state-carrying line, and where that previous line DID carry a
same-line value (`prev_had_value = true`, i.e. it contained a tab
separator). -/
theorem c7_orphan_characterisation (l : Line) (prev : Int) (had : Bool) :
    validate_line l prev had = some .orphanedLine ↔
      (l.isEmpty = false ∧
       ¬((l.dropWhile (fun c => c = '\t')).head? = some '#') ∧
       has_leading_spaces l = false ∧
       has_mixed_indent l = false ∧
       (count_leading_tabs l : Int) ≤ prev + 1 ∧
       (count_leading_tabs l : Int) > prev ∧ had = true) := by
  constructor
  · intro h
    simp only [validate_line] at h
    by_cases e1 : l.isEmpty = true
    · simp [e1] at h
    by_cases e2 : (l.dropWhile (fun c => c = '\t')).head? = some '#'
    · simp [e1, e2] at h
    by_cases e3 : has_leading_spaces l = true
    · simp [e1, e2, e3] at h
    by_cases e4 : has_mixed_indent l = true
    · simp [e1, e2, e3, e4] at h
    by_cases e5 : (count_leading_tabs l : Int) > prev + 1
    · simp [e1, e2, e3, e4, e5] at h
    by_cases e6 : (decide ((count_leading_tabs l : Int) > prev) && had) = true
    · simp only [Bool.and_eq_true, decide_eq_true_eq] at e6
      exact ⟨by simp [e1], e2, by simp [e3], by simp [e4], by omega,
        e6.1, e6.2⟩
    · exfalso
      simp only [e1, e2, e3, e4, e5, if_false, ite_false,
        Bool.false_eq_true] at h
      rw [if_neg e6] at h
      split at h
      · simp at h
      · split at h
        · simp at h
        · split at h
          · simp at h
          · split at h
            · simp at h
            · split at h <;> simp at h
  · rintro ⟨e1, e2, e3, e4, e5, e6, e7⟩
    simp only [validate_line]
    rw [if_neg (by simp_all), if_neg e2, if_neg (by simp_all),
        if_neg (by simp_all), if_neg (by omega), if_pos (by simp [e6, e7])]

/-- A converted scalar is never a container. -/
theorem convert_value_isScalar (s : Line) (conv : Bool) :
    isScalar (convert_value s conv) = true := by
  unfold convert_value
  split
  · rfl
  · split
    · rfl
    · split
      · rfl
      · split
        · split <;> rfl
        · rfl

/-- The array/object decision of the determination loop does not depend on
the threaded parser state (the state only collects diagnostics). -/
theorem scanBand_fst_state (ls : List (Nat × Line)) (p : Int)
    (st st₂ : PState) :
    (scanBand ls p st).1 = (scanBand ls p st₂).1 := by
  induction ls generalizing st st₂ with
  | nil => rfl
  | cons x rest ih =>
    obtain ⟨n, l⟩ := x
    unfold scanBand
    dsimp only
    split
    · rfl
    · split
      · exact ih _ _
      · split
        · rfl
        · split
          · rfl
          · exact ih _ _

/-- When the determination loop classified a band as an array, the build
loop's per-item child lookahead (the same computation) always fails, so
every element it appends is a converted scalar: the child-parsing branch of
the array builder is never taken. -/
theorem buildArr_scalar (ls : List (Nat × Line)) (p : Int) :
    ∀ (st st₂ : PState), (scanBand ls p st).1 = true →
    itemsAllScalar (buildArr ls p st₂).1 = true := by
  induction ls with
  | nil =>
    intro st st₂ _
    unfold buildArr
    rfl
  | cons x rest ih =>
    intro st st₂ hscan
    obtain ⟨n, l⟩ := x
    unfold scanBand at hscan
    unfold buildArr
    dsimp only at hscan ⊢
    split
    · rfl
    · next h₁ =>
      rw [if_neg h₁] at hscan
      split
      · next h₂ =>
        rw [if_pos h₂] at hscan
        exact ih (recordIndentErr st n) st₂ hscan
      · next h₂ =>
        rw [if_neg h₂] at hscan
        have hscan₂ : hasChildAt rest (count_leading_tabs l) = false ∧
            (scanBand rest p st).1 = true := by
          split at hscan
          · simp at hscan
          · split at hscan
            · simp at hscan
            · next hq => exact ⟨by simpa using hq, hscan⟩
        split
        · next h₃ => simp [hscan₂.1] at h₃
        · next h₃ =>
          simp only [itemsAllScalar, Bool.and_eq_true]
          exact ⟨convert_value_isScalar _ _, ih st st₂ hscan₂.2⟩

/-- Scalars trivially satisfy the arrays-hold-only-scalars predicate. -/
theorem scalar_arraysScalarOnly (v : Value) (h : isScalar v = true) :
    arraysScalarOnly v = true := by
  cases v <;> simp_all [isScalar, arraysScalarOnly]

/-- Replacing with a good value preserves the array-scalar invariant. -/
theorem pairsArraysScalar_replace (acc : List (Line × Value)) (k : Line)
    (v : Value) (hacc : pairsArraysScalar acc = true)
    (hv : arraysScalarOnly v = true) :
    pairsArraysScalar (replacePairs acc k v) = true := by
  induction acc with
  | nil => rfl
  | cons p rest ih =>
    obtain ⟨k₁, v₁⟩ := p
    simp only [pairsArraysScalar, Bool.and_eq_true] at hacc
    by_cases e : k₁ = k
    · simp [replacePairs, e, pairsArraysScalar, hv, hacc.2]
    · simp [replacePairs, e, pairsArraysScalar, hacc.1, ih hacc.2]

/-- `taml_object_set` with a good value preserves the invariant. -/
theorem pairsArraysScalar_set (acc : List (Line × Value)) (k : Line)
    (v : Value) (hacc : pairsArraysScalar acc = true)
    (hv : arraysScalarOnly v = true) :
    pairsArraysScalar (objectSetPairs acc k v) = true := by
  unfold objectSetPairs
  split
  · exact pairsArraysScalar_replace acc k v hacc hv
  · simp [pairsArraysScalar, hv, hacc]

/-- Every value `parse_lines` produces satisfies the arrays-hold-only-
scalars invariant (induction over the recursion, measured by the
kept-line-range length). -/
theorem parse_lines_arrays_scalar :
    ∀ (N : Nat) (ls : List (Nat × Line)), ls.length ≤ N →
    ∀ (p : Int) (st : PState) (v : Value),
      (parse_lines ls p st).1 = some v → arraysScalarOnly v = true := by
  intro N
  induction N with
  | zero =>
    intro ls hlen p st v hv
    have he : ls = [] := List.length_eq_zero.mp (Nat.le_zero.mp hlen)
    subst he
    unfold parse_lines at hv
    simp at hv
  | succ n ihN =>
    have hobj : ∀ (m : Nat) (ls₂ : List (Nat × Line)), ls₂.length ≤ m →
        ls₂.length ≤ n + 1 →
        ∀ (p₂ : Int) (st₂ : PState) (acc : List (Line × Value)),
          pairsArraysScalar acc = true →
          pairsArraysScalar (buildObj ls₂ p₂ st₂ acc).1 = true := by
      intro m
      induction m with
      | zero =>
        intro ls₂ hm _ p₂ st₂ acc hacc
        have he : ls₂ = [] := List.length_eq_zero.mp (Nat.le_zero.mp hm)
        subst he
        unfold buildObj
        exact hacc
      | succ m ihm =>
        intro ls₂ hm hn p₂ st₂ acc hacc
        cases ls₂ with
        | nil => unfold buildObj; exact hacc
        | cons y ys =>
          obtain ⟨n₀, l₀⟩ := y
          simp only [List.length_cons, Nat.succ_le_succ_iff] at hm hn
          unfold buildObj
          dsimp only
          split
          · exact hacc
          · split
            · exact ihm ys hm (by omega) p₂ st₂ acc hacc
            · split
              · next kv heq =>
                split
                · exact ihm ys hm (by omega) p₂ _ acc hacc
                · refine ihm ys hm (by omega) p₂ st₂ _ ?_
                  exact pairsArraysScalar_set acc _ _ hacc
                    (scalar_arraysScalarOnly _ (convert_value_isScalar _ _))
              · have hcont := (List.dropWhile_suffix
                  (l := ys) (isDeeper (count_leading_tabs l₀))).length_le
                have hchild := (List.takeWhile_prefix
                  (l := ys) (isDeeper (count_leading_tabs l₀))).length_le
                refine ihm _ (by omega) (by omega) p₂ _ _ ?_
                cases hc : (parse_lines
                    (ys.takeWhile (isDeeper (count_leading_tabs l₀)))
                    (count_leading_tabs l₀ : Int) st₂).1 with
                | none => exact hacc
                | some c =>
                  exact pairsArraysScalar_set acc _ _ hacc
                    (ihN _ (by omega) _ _ _ hc)
    intro ls hlen p st v hv
    cases ls with
    | nil => unfold parse_lines at hv; simp at hv
    | cons x xs =>
      unfold parse_lines at hv
      dsimp only at hv
      by_cases hs : (scanBand (x :: xs) p st).1 = true
      · rw [if_pos hs] at hv
        simp only [Option.some.injEq] at hv
        subst hv
        show itemsAllScalar (buildArr (x :: xs) p (scanBand (x :: xs) p st).2).1
          = true
        exact buildArr_scalar (x :: xs) p st _ hs
      · rw [if_neg hs] at hv
        simp only [Option.some.injEq] at hv
        subst hv
        show pairsArraysScalar (buildObj (x :: xs) p
          (scanBand (x :: xs) p st).2 []).1 = true
        exact hobj (x :: xs).length (x :: xs) le_rfl hlen p _ [] rfl

/-- C9: for every input text and every option pair, each Array node in the
parsed Document holds only scalar leaves (Null, Bool, Int, Float or
String); equivalently, the array-building branch that would recursively
parse a child band of an array item never contributes (the determination
loop's and the build loop's child lookaheads are the same computation, so
once a band is classified as an array no item can have children). -/
theorem c9_arrays_hold_only_scalars (text : List Char) (strict conv : Bool)
    (v : Value) (h : (taml_parse text strict conv).root = some v) :
    arraysScalarOnly v = true := by
  unfold taml_parse at h
  exact parse_lines_arrays_scalar (keptOf text).enum.length _ le_rfl _ _ _ h

/-- C9 witness: the invariant at the parse of the spec's array scenario. -/
theorem c9_arrays_witness :
    arraysScalarOnly
      (.obj [("items".toList,
        .arr [.str "item1".toList, .str "item2".toList])]) = true :=
  c9_arrays_hold_only_scalars "items\n\titem1\n\titem2\n".toList false true _
    (by
      simp +decide [taml_parse, keptOf, tokensOf, splitNl, keptLine,
        parse_lines, scanBand, buildArr, buildObj, count_leading_tabs,
        convert_value, trim_trailing_whitespace, splitAtFirstTab, hasChildAt,
        isDeeper, is_boolean, is_numeric, numScan, recordIndentErr,
        recordKeyErr, isspaceC, has_tab_in_content, objectSetPairs,
        containsKey, lookupPairs, replacePairs, List.enum])

/-- C8: starting from the empty object, any sequence of `taml_object_set`
calls leaves the keys pairwise distinct; and setting an existing key takes
the replace branch, which keeps the pair count, the full key list in order
(hence the key's position), and every other key's value, while the set
key's lookup yields the new value. -/
theorem c8_object_set :
    (∀ ops : List (Line × Value),
        keysDistinct (ops.foldl (fun ps kv => objectSetPairs ps kv.1 kv.2) [])
          = true) ∧
    (∀ (ps : List (Line × Value)) (k : Line) (v : Value),
        containsKey ps k = true →
        objectSetPairs ps k v = replacePairs ps k v ∧
        (objectSetPairs ps k v).length = ps.length ∧
        (objectSetPairs ps k v).map Prod.fst = ps.map Prod.fst ∧
        lookupPairs (objectSetPairs ps k v) k = some v ∧
        (∀ k₂ : Line, k₂ ≠ k →
          lookupPairs (objectSetPairs ps k v) k₂ = lookupPairs ps k₂)) := by
  constructor
  · have inv : ∀ (ops ps : List (Line × Value)), keysDistinct ps = true →
        keysDistinct (ops.foldl (fun qs kv => objectSetPairs qs kv.1 kv.2) ps)
          = true := by
      intro ops
      induction ops with
      | nil => intro ps h; exact h
      | cons kv rest ih =>
        intro ps h
        exact ih _ (keysDistinct_set ps kv.1 kv.2 h)
    intro ops
    exact inv ops [] rfl
  · intro ps k v h
    have hs : objectSetPairs ps k v = replacePairs ps k v := by
      unfold objectSetPairs; rw [if_pos h]
    refine ⟨hs, ?_, ?_, ?_, ?_⟩
    · rw [hs]; exact replace_length ps k v
    · rw [hs]; exact replace_map_fst ps k v
    · rw [hs]; exact lookup_replace_self ps k v h
    · intro k₂ hk; rw [hs]; exact lookup_replace_other ps k k₂ v hk

/-- C8 witness: distinctness after a concrete set sequence with a repeated
key, and in-place replacement at a concrete existing key. -/
theorem c8_object_set_witness :
    keysDistinct
      (([(( ['a'] : Line), Value.null), ((['b'] : Line), Value.null),
         ((['a'] : Line), Value.int 1)]).foldl
        (fun ps kv => objectSetPairs ps kv.1 kv.2) []) = true ∧
    lookupPairs (objectSetPairs [((['a'] : Line), Value.null)] ['a'] (.int 1))
      ['a'] = some (.int 1) :=
  ⟨c8_object_set.1 _,
   (c8_object_set.2 [((['a'] : Line), Value.null)] ['a'] (.int 1)
      (by decide)).2.2.2.1⟩

/-- C10: `taml_object_get` returns NULL whenever the receiver is not an
object or the key is absent, and `taml_array_get` returns NULL whenever the
receiver is not an array or the index is at least the array size; both are
pure lookups in this model, so neither can modify the container. -/
theorem c10_get_safety :
    (∀ (v : Value) (key : Line), typeOf v ≠ .tObject →
        taml_object_get v key = none) ∧
    (∀ (ps : List (Line × Value)) (key : Line), containsKey ps key = false →
        taml_object_get (.obj ps) key = none) ∧
    (∀ (v : Value) (i : Nat), typeOf v ≠ .tArray → taml_array_get v i = none) ∧
    (∀ (its : List Value) (i : Nat), taml_array_size (.arr its) ≤ i →
        taml_array_get (.arr its) i = none) := by
  refine ⟨?_, ?_, ?_, ?_⟩
  · intro v key h
    cases v <;> simp [taml_object_get, typeOf] at h ⊢
  · intro ps key h
    have h₂ : lookupPairs ps key = none := by
      simp [containsKey] at h; exact h
    simpa [taml_object_get] using h₂
  · intro v i h
    cases v <;> simp [taml_array_get, typeOf] at h ⊢
  · intro its
    induction its with
    | nil => intro i h; simp [taml_array_get, arrGetItems]
    | cons x rest ih =>
      intro i h
      simp only [taml_array_size, List.length_cons] at h
      match i, h with
      | n + 1, h =>
        simp only [taml_array_get, arrGetItems]
        have := ih n (by simpa [taml_array_size] using h)
        simpa [taml_array_get] using this

/-- C10 witness: the four NULL-returning situations at concrete values. -/
theorem c10_get_safety_witness :
    taml_object_get .null [] = none ∧
    taml_object_get (.obj []) ['k'] = none ∧
    taml_array_get (.bool true) 0 = none ∧
    taml_array_get (.arr [.null]) 5 = none :=
  ⟨c10_get_safety.1 .null [] (by decide),
   c10_get_safety.2.1 [] ['k'] (by decide),
   c10_get_safety.2.2.1 (.bool true) 0 (by decide),
   c10_get_safety.2.2.2 [.null] 5 (by norm_num [taml_array_size])⟩

/-- C1 counterexample: the tree `{k: String "true"}` satisfies the claim's
premises (key free of tabs and newlines, string leaf distinct from both
sentinels), yet parsing its serialization yields `{k: Bool true}` -- a
different variant at the leaf -- so `Parse(Serialize(v))` is not
structurally equal to `v`. -/
theorem c1_counterexample :
    taml_stringify_value (.obj [("k".toList, .str "true".toList)])
      = "k\ttrue\n".toList ∧
    (taml_parse "k\ttrue\n".toList false true).err = none ∧
    (taml_parse "k\ttrue\n".toList false true).root
      = some (.obj [("k".toList, .bool true)]) ∧
    Value.obj [("k".toList, Value.bool true)]
      ≠ Value.obj [("k".toList, Value.str "true".toList)] ∧
    "k".toList.contains '\t' = false ∧
    "k".toList.contains '\n' = false ∧
    "true".toList ≠ "~".toList ∧
    "true".toList ≠ "\"\"".toList := by
  refine ⟨?_, ?_, ?_, by simp, by decide, by decide, by decide, by decide⟩
  · simp [taml_stringify_value, serialize_value, serializeObj, indentChars]
  all_goals
  simp +decide [taml_parse, keptOf, tokensOf, splitNl, keptLine, parse_lines,
    scanBand, buildArr, buildObj, count_leading_tabs, convert_value,
    trim_trailing_whitespace, splitAtFirstTab, hasChildAt, isDeeper,
    is_boolean, is_numeric, numScan, recordIndentErr, recordKeyErr, isspaceC,
    has_tab_in_content, objectSetPairs, containsKey, lookupPairs,
    replacePairs, List.enum]

/-- C2 counterexample: `"a\tb\tc"` is rejected by the validator
(InvalidTabInValue at line 1), but strict-mode parse accepts it with an
empty diagnostic, storing `b\tc` verbatim -- so validator acceptance and
empty strict-parse diagnostics do not coincide. -/
theorem c2_counterexample :
    taml_validate "a\tb\tc\n".toList = some (.invalidTabInValue, 1) ∧
    (taml_parse "a\tb\tc\n".toList true true).err = none ∧
    (taml_parse "a\tb\tc\n".toList true true).root
      = some (.obj [("a".toList, .str "b\tc".toList)]) := by
  refine ⟨by decide, ?_, ?_⟩ <;>
  simp +decide [taml_parse, keptOf, tokensOf, splitNl, keptLine, parse_lines,
    scanBand, buildArr, buildObj, count_leading_tabs, convert_value,
    trim_trailing_whitespace, splitAtFirstTab, hasChildAt, isDeeper,
    is_boolean, is_numeric, numScan, recordIndentErr, recordKeyErr, isspaceC,
    has_tab_in_content, objectSetPairs, containsKey, lookupPairs,
    replacePairs, List.enum]

/-- An accepting run of the validator's token loop leaves the kept lines
satisfying the depth chain: each at most one deeper than the previous
state-carrying line, and deeper only after a line without a same-line
value. -/
theorem validateLoop_chain :
    ∀ (toks : List Line) (n : Nat) (prev : Int) (had : Bool),
    validateLoop toks n prev had = none →
    chainOK prev had (toks.filter keptLine) := by
  intro toks
  induction toks with
  | nil => intro n prev had _; trivial
  | cons l rest ih =>
    intro n prev had h
    unfold validateLoop at h
    cases hv : validate_line l prev had with
    | some e => rw [hv] at h; simp at h
    | none =>
      rw [hv] at h
      dsimp only at h
      cases hd : l.dropWhile (fun c => c = '\t') with
      | nil =>
        rw [hd] at h
        dsimp only at h
        have hk : keptLine l = false := by simp [keptLine, hd]
        simpa [List.filter, hk] using ih (n + 1) prev had h
      | cons c t =>
        rw [hd] at h
        dsimp only at h
        by_cases hc : c = '#'
        · rw [if_pos hc] at h
          have hk : keptLine l = false := by simp [keptLine, hd, hc]
          simpa [List.filter, hk] using ih (n + 1) prev had h
        · rw [if_neg hc] at h
          have hk : keptLine l = true := by simp [keptLine, hd, hc]
          have hne : l.isEmpty = false := by
            cases l with
            | nil => simp at hd
            | cons a as => rfl
          have hcm : ¬((l.dropWhile (fun c => c = '\t')).head? = some '#') := by
            rw [hd]; simp [hc]
          unfold validate_line at hv
          rw [if_neg (by simp [hne]), if_neg hcm] at hv
          by_cases hsp : has_leading_spaces l = true
          · rw [if_pos hsp] at hv; simp at hv
          · rw [if_neg hsp] at hv
            by_cases hmx : has_mixed_indent l = true
            · rw [if_pos hmx] at hv; simp at hv
            · rw [if_neg hmx] at hv
              dsimp only at hv
              by_cases hind : (count_leading_tabs l : Int) > prev + 1
              · rw [if_pos hind] at hv; simp at hv
              · rw [if_neg hind] at hv
                by_cases horp :
                    (decide ((count_leading_tabs l : Int) > prev) && had)
                      = true
                · rw [if_pos horp] at hv; simp at hv
                · simp only [List.filter, hk, chainOK]
                  refine ⟨by omega, ?_, ?_⟩
                  · intro hgt
                    simp only [Bool.and_eq_true, decide_eq_true_eq,
                      not_and] at horp
                    cases had with
                    | false => rfl
                    | true => exact absurd rfl (horp hgt)
                  · have hct : contentHasTab l = (c :: t).contains '\t' := by
                      simp [contentHasTab, hd]
                    rw [hct]
                    exact ih (n + 1) _ _ h

/-- When `taml_validate` returns `TAML_OK`, the kept lines form a depth
chain from the initial state `(-1, false)`. -/
theorem taml_validate_chain (text : List Char)
    (h : taml_validate text = none) :
    chainOK (-1) false (keptOf text) :=
  validateLoop_chain (tokensOf text) 0 (-1) false h

/-- Adjacent kept lines inside a chain obey the one-level bound. -/
theorem chainOK_adjacent (A B : Line) (post : List Line) :
    ∀ (pre : List Line) (prev : Int) (had : Bool),
    chainOK prev had (pre ++ A :: B :: post) →
    (count_leading_tabs B : Int) ≤ count_leading_tabs A + 1 := by
  intro pre
  induction pre with
  | nil =>
    intro prev had h
    exact h.2.2.1
  | cons x xs ih =>
    intro prev had h
    exact ih _ _ h.2.2

/-- C6 amended: if kept line B immediately follows kept line A with
depth(B) > depth(A), then either depth(B) = depth(A) + 1 or `taml_validate`
rejects the text.  (The original claim's location promise fails: the
reported number counts `strtok` tokens, so blank source lines are not
counted, and an earlier violation -- for example an all-tab line's EmptyKey
-- may preempt the InconsistentIndent report; see the counterexample.) -/
theorem c6_depth_jump_rejected (text : List Char) (pre post : List Line)
    (A B : Line) (h : keptOf text = pre ++ A :: B :: post)
    (hjump : count_leading_tabs B > count_leading_tabs A) :
    count_leading_tabs B = count_leading_tabs A + 1 ∨
      taml_validate text ≠ none := by
  by_cases hv : taml_validate text = none
  · left
    have hchain := taml_validate_chain text hv
    rw [h] at hchain
    have hle := chainOK_adjacent A B post pre (-1) false hchain
    omega
  · right; exact hv

/-- C6 witness: the amended property at the spec's nested-object scenario,
where the depth increase is exactly one level. -/
theorem c6_depth_jump_witness :
    count_leading_tabs "\thost\tlocalhost".toList
        = count_leading_tabs "server".toList + 1 ∨
      taml_validate "server\n\thost\tlocalhost\n\tport\t8080\n".toList
        ≠ none :=
  c6_depth_jump_rejected "server\n\thost\tlocalhost\n\tport\t8080\n".toList
    [] ["\tport\t8080".toList] "server".toList "\thost\tlocalhost".toList
    (by decide) (by decide)

/-- C6 counterexample: in `"a\n\n\t\t\tb\n"` the kept line `\t\t\tb`
immediately follows `a` with a depth jump from 0 to 3, and the validator
does report InconsistentIndent -- but at line 2, not at B's source line
number 3, because `strtok` never counts the blank source line. -/
theorem c6_counterexample :
    keptOf "a\n\n\t\t\tb\n".toList = ["a".toList, "\t\t\tb".toList] ∧
    count_leading_tabs "a".toList = 0 ∧
    count_leading_tabs "\t\t\tb".toList = 3 ∧
    (splitNl "a\n\n\t\t\tb\n".toList).get? 2 = some "\t\t\tb".toList ∧
    taml_validate "a\n\n\t\t\tb\n".toList = some (.inconsistentIndent, 2) := by
  decide

/-- The head surviving a `dropWhile` fails the predicate. -/
theorem dropWhile_head_false (q : α → Bool) (l : List α) :
    ∀ y ∈ (l.dropWhile q).head?, q y = false := by
  induction l with
  | nil => simp
  | cons x xs ih =>
    by_cases hq : q x = true
    · simpa [List.dropWhile_cons, hq] using ih
    · simp only [List.dropWhile_cons]
      rw [if_neg (by simp [hq])]
      intro y hy
      simp only [List.head?_cons, Option.mem_def, Option.some.injEq] at hy
      subst hy
      simpa using hq

/-- When the child lookahead fails and the next line is at most one level
deeper, the next line is in fact not deeper at all. -/
theorem noChild_head_le (m : Nat) (w : Line) (ys : List (Nat × Line))
    (c : Nat) (hc : hasChildAt ((m, w) :: ys) c = false)
    (hstep : (count_leading_tabs w : Int) ≤ c + 1) :
    (count_leading_tabs w : Int) ≤ c := by
  unfold hasChildAt at hc
  dsimp only at hc
  by_cases h₁ : count_leading_tabs w ≤ c
  · exact_mod_cast h₁
  · rw [if_neg h₁] at hc
    by_cases h₂ : count_leading_tabs w = c + 1
    · rw [if_pos h₂] at hc; cases hc
    · omega

/-- The head of a child block sits at most one level below the parent. -/
theorem takeWhile_head_le (m₁ : Nat) (w₁ : Line) (zs : List (Nat × Line))
    (c : Nat) (hstep : (count_leading_tabs w₁ : Int) ≤ c + 1) :
    headLe (((m₁, w₁) :: zs).takeWhile (isDeeper c)) (c : Int) := by
  rw [List.takeWhile_cons]
  by_cases hd : isDeeper c (m₁, w₁) = true
  · rw [if_pos hd]
    exact hstep
  · rw [if_neg hd]
    trivial

/-- The continuation after a child block starts back at band depth. -/
theorem dropWhile_head_le (ls : List (Nat × Line)) (c : Nat) (p₂ : Int)
    (hp : (c : Int) = p₂ + 1) :
    headLe (ls.dropWhile (isDeeper c)) p₂ := by
  cases hq : ls.dropWhile (isDeeper c) with
  | nil => trivial
  | cons q qs =>
    have hqh := dropWhile_head_false (isDeeper c) ls q (by rw [hq]; simp)
    simp only [isDeeper, decide_eq_false_iff_not, not_lt] at hqh
    show (count_leading_tabs q.2 : Int) ≤ p₂ + 1
    omega



/-- Dropping `count_leading_tabs` characters is dropping the leading tabs:
the parser's `content = line + indent` equals the comment filter's
`dropWhile`. -/
theorem dropCount_eq_dropWhile (l : Line) :
    l.drop (count_leading_tabs l) = l.dropWhile (fun c => c = '\t') := by
  induction l with
  | nil => rfl
  | cons c rest ih =>
    by_cases e : c = '\t' <;>
      simp [count_leading_tabs, List.takeWhile_cons, List.dropWhile_cons, e] <;>
      simpa [count_leading_tabs] using ih

/-- A line that splits at a tab does contain a tab. -/
theorem splitAtFirstTab_contains (l : Line) (kv : Line × Line)
    (h : splitAtFirstTab l = some kv) : l.contains '\t' = true := by
  induction l generalizing kv with
  | nil => simp [splitAtFirstTab] at h
  | cons c rest ih =>
    unfold splitAtFirstTab at h
    by_cases e : c = '\t'
    · simp [e]
    · rw [if_neg e] at h
      cases hs : splitAtFirstTab rest with
      | none => simp [hs] at h
      | some kv₂ =>
        simp only [List.contains_cons, ih kv₂ hs, Bool.or_true]

/-- The part before the FIRST tab never contains a tab, so the strict-mode
key check of parser.c:298 can never fire. -/
theorem splitAtFirstTab_key_no_tab (l : Line) (kv : Line × Line)
    (h : splitAtFirstTab l = some kv) : kv.1.contains '\t' = false := by
  induction l generalizing kv with
  | nil => simp [splitAtFirstTab] at h
  | cons c rest ih =>
    unfold splitAtFirstTab at h
    by_cases e : c = '\t'
    · rw [if_pos e] at h
      simp only [Option.some.injEq] at h
      subst h
      rfl
    · rw [if_neg e] at h
      cases hs : splitAtFirstTab rest with
      | none => simp [hs] at h
      | some kv₂ =>
        rw [hs] at h
        simp only [Option.map_some', Option.some.injEq] at h
        subst h
        simp only [List.contains_cons, Bool.or_eq_false_iff]
        exact ⟨beq_eq_false_iff_ne.mpr (fun hh => e hh.symm), ih kv₂ hs⟩

/-- Trimming only removes characters: membership is preserved downward. -/
theorem mem_trim (l : Line) (a : Char)
    (h : a ∈ trim_trailing_whitespace l) : a ∈ l := by
  cases l with
  | nil => simpa [trim_trailing_whitespace] using h
  | cons c rest =>
    simp only [trim_trailing_whitespace, List.mem_cons] at h ⊢
    rcases h with h | h
    · exact Or.inl h
    · right
      rw [List.mem_reverse] at h
      have := (List.dropWhile_sublist (l := rest.reverse) isspaceC).subset h
      rwa [List.mem_reverse] at this

/-- Trimming cannot introduce a tab. -/
theorem trim_no_tab (l : Line) (h : l.contains '\t' = false) :
    (trim_trailing_whitespace l).contains '\t' = false := by
  by_contra hcon
  have h₂ : '\t' ∈ trim_trailing_whitespace l := by
    cases hq : (trim_trailing_whitespace l).contains '\t'
    · exact absurd hq hcon
    · simpa using hq
  have h₄ : '\t' ∈ l := mem_trim l '\t' h₂
  have h₅ : l.contains '\t' = true := by simpa using h₄
  rw [h₅] at h
  cases h

/-- Under the validator-derived chain facts, the determination loop never
meets a bad-indent line and leaves the parser state untouched. -/
theorem scanBand_state_preserved :
    ∀ (ls : List (Nat × Line)) (p : Int) (st : PState),
    List.Chain' stepOK ls → headLe ls p →
    (scanBand ls p st).2 = st := by
  intro ls
  induction ls with
  | nil => intro p st _ _; rfl
  | cons x rest ih =>
    obtain ⟨n, l⟩ := x
    intro p st hch hhd
    have hc : (count_leading_tabs l : Int) ≤ p + 1 := hhd
    unfold scanBand
    dsimp only
    split
    · rfl
    · next h₁ =>
      split
      · next h₂ =>
        exact absurd (by omega : (count_leading_tabs l : Int) = p + 1) h₂
      · next h₂ =>
        split
        · rfl
        · split
          · rfl
          · next h₄ =>
            apply ih p st hch.tail
            cases rest with
            | nil => trivial
            | cons y ys =>
              obtain ⟨m, w⟩ := y
              have hstep : stepOK (n, l) (m, w) := (List.chain'_cons.mp hch).1
              have hle := noChild_head_le m w ys (count_leading_tabs l)
                (by simpa using h₄) hstep.1
              show (count_leading_tabs w : Int) ≤ p + 1
              omega



/-- Under the validator-derived chain facts, the whole recursive parse
never records a diagnostic: the final state equals the initial one
(induction over the recursion, measured by the line-range length). -/
theorem parse_lines_state_preserved :
    ∀ (N : Nat) (ls : List (Nat × Line)), ls.length ≤ N →
    List.Chain' stepOK ls → ∀ (p : Int), headLe ls p →
    ∀ (st : PState), (parse_lines ls p st).2 = st := by
  intro N
  induction N with
  | zero =>
    intro ls hlen _ p _ st
    have he : ls = [] := List.length_eq_zero.mp (Nat.le_zero.mp hlen)
    subst he
    unfold parse_lines
    rfl
  | succ n ihN =>
    have harr : ∀ (m : Nat) (ls₂ : List (Nat × Line)), ls₂.length ≤ m →
        ls₂.length ≤ n + 1 → List.Chain' stepOK ls₂ → ∀ (p₂ : Int),
        headLe ls₂ p₂ → ∀ (st₂ : PState), (buildArr ls₂ p₂ st₂).2 = st₂ := by
      intro m
      induction m with
      | zero =>
        intro ls₂ hm _ _ p₂ _ st₂
        have he : ls₂ = [] := List.length_eq_zero.mp (Nat.le_zero.mp hm)
        subst he
        unfold buildArr
        rfl
      | succ m ihm =>
        intro ls₂ hm hn hch p₂ hhd st₂
        cases ls₂ with
        | nil => unfold buildArr; rfl
        | cons y ys =>
          obtain ⟨n₀, l₀⟩ := y
          simp only [List.length_cons, Nat.succ_le_succ_iff] at hm hn
          have hc : (count_leading_tabs l₀ : Int) ≤ p₂ + 1 := hhd
          unfold buildArr
          dsimp only
          split
          · rfl
          · next h₁ =>
            split
            · next h₂ =>
              exact absurd
                (by omega : (count_leading_tabs l₀ : Int) = p₂ + 1) h₂
            · next h₂ =>
              split
              · next h₃ =>
                cases ys with
                | nil => cases h₃
                | cons z zs =>
                  obtain ⟨m₁, w₁⟩ := z
                  have hstep : stepOK (n₀, l₀) (m₁, w₁) :=
                    (List.chain'_cons.mp hch).1
                  have hstep1 : (count_leading_tabs w₁ : Int)
                      ≤ count_leading_tabs l₀ + 1 := hstep.1
                  have hdrop : ((m₁, w₁) :: zs).dropWhile
                      (isDeeper (count_leading_tabs l₀ + 1))
                        = (m₁, w₁) :: zs := by
                    rw [List.dropWhile_cons, if_neg]
                    simp only [isDeeper, decide_eq_true_eq]
                    omega
                  rw [hdrop]
                  have hlentw := (List.takeWhile_prefix
                    (l := (m₁, w₁) :: zs)
                    (isDeeper (count_leading_tabs l₀))).length_le
                  have hlendw := (List.dropWhile_suffix
                    (l := (m₁, w₁) :: zs)
                    (isDeeper (count_leading_tabs l₀))).length_le
                  have hchild :
                      (parse_lines (((m₁, w₁) :: zs).takeWhile
                          (isDeeper (count_leading_tabs l₀)))
                        (count_leading_tabs l₀ : Int) st₂).2 = st₂ := by
                    apply ihN
                    · simp only [List.length_cons] at hlentw hn ⊢
                      omega
                    · exact hch.tail.infix (List.takeWhile_prefix _).isInfix
                    · exact takeWhile_head_le m₁ w₁ zs
                        (count_leading_tabs l₀) hstep.1
                  rw [hchild]
                  apply ihm
                  · simp only [List.length_cons] at hlendw hm ⊢
                    omega
                  · simp only [List.length_cons] at hlendw hn ⊢
                    omega
                  · exact hch.tail.infix (List.dropWhile_suffix _).isInfix
                  · exact dropWhile_head_le ((m₁, w₁) :: zs)
                      (count_leading_tabs l₀) p₂ (by omega)
              · next h₃ =>
                apply ihm ys hm (by omega) hch.tail p₂ ?_ st₂
                cases ys with
                | nil => trivial
                | cons z zs =>
                  obtain ⟨m₁, w₁⟩ := z
                  have hstep : stepOK (n₀, l₀) (m₁, w₁) :=
                    (List.chain'_cons.mp hch).1
                  have hle := noChild_head_le m₁ w₁ zs (count_leading_tabs l₀)
                    (by simpa using h₃) hstep.1
                  show (count_leading_tabs w₁ : Int) ≤ p₂ + 1
                  omega
    have hobj : ∀ (m : Nat) (ls₂ : List (Nat × Line)), ls₂.length ≤ m →
        ls₂.length ≤ n + 1 → List.Chain' stepOK ls₂ → ∀ (p₂ : Int),
        headLe ls₂ p₂ → ∀ (st₂ : PState) (acc : List (Line × Value)),
        (buildObj ls₂ p₂ st₂ acc).2 = st₂ := by
      intro m
      induction m with
      | zero =>
        intro ls₂ hm _ _ p₂ _ st₂ acc
        have he : ls₂ = [] := List.length_eq_zero.mp (Nat.le_zero.mp hm)
        subst he
        unfold buildObj
        rfl
      | succ m ihm =>
        intro ls₂ hm hn hch p₂ hhd st₂ acc
        cases ls₂ with
        | nil => unfold buildObj; rfl
        | cons y ys =>
          obtain ⟨n₀, l₀⟩ := y
          simp only [List.length_cons, Nat.succ_le_succ_iff] at hm hn
          have hc : (count_leading_tabs l₀ : Int) ≤ p₂ + 1 := hhd
          unfold buildObj
          dsimp only
          split
          · rfl
          · next h₁ =>
            split
            · next h₂ =>
              exact absurd
                (by omega : (count_leading_tabs l₀ : Int) = p₂ + 1) h₂
            · next h₂ =>
              split
              · next kv heq =>
                split
                · next hbad =>
                  exfalso
                  have hkeytab := splitAtFirstTab_key_no_tab _ kv heq
                  have := trim_no_tab kv.1 hkeytab
                  simp only [Bool.and_eq_true] at hbad
                  rw [has_tab_in_content, this] at hbad
                  cases hbad.2
                · apply ihm ys hm (by omega) hch.tail p₂ ?_ st₂
                  cases ys with
                  | nil => trivial
                  | cons z zs =>
                    obtain ⟨m₁, w₁⟩ := z
                    have hstep : stepOK (n₀, l₀) (m₁, w₁) :=
                      (List.chain'_cons.mp hch).1
                    have hstep1 : (count_leading_tabs w₁ : Int)
                        ≤ count_leading_tabs l₀ + 1 := hstep.1
                    have hstep2 : count_leading_tabs w₁
                        = count_leading_tabs l₀ + 1 →
                        contentHasTab l₀ = false := hstep.2
                    have htab : contentHasTab l₀ = true := by
                      rw [contentHasTab, ← dropCount_eq_dropWhile]
                      exact splitAtFirstTab_contains _ kv heq
                    show (count_leading_tabs w₁ : Int) ≤ p₂ + 1
                    by_cases he : count_leading_tabs w₁
                        = count_leading_tabs l₀ + 1
                    · rw [hstep2 he] at htab; cases htab
                    · omega
              · next heq =>
                have hlentw := (List.takeWhile_prefix
                  (l := ys) (isDeeper (count_leading_tabs l₀))).length_le
                have hlendw := (List.dropWhile_suffix
                  (l := ys) (isDeeper (count_leading_tabs l₀))).length_le
                have hchild :
                    (parse_lines (ys.takeWhile
                        (isDeeper (count_leading_tabs l₀)))
                      (count_leading_tabs l₀ : Int) st₂).2 = st₂ := by
                  apply ihN
                  · omega
                  · exact hch.tail.infix (List.takeWhile_prefix _).isInfix
                  · cases ys with
                    | nil => trivial
                    | cons z zs =>
                      obtain ⟨m₁, w₁⟩ := z
                      have hstep : stepOK (n₀, l₀) (m₁, w₁) :=
                        (List.chain'_cons.mp hch).1
                      exact takeWhile_head_le m₁ w₁ zs
                        (count_leading_tabs l₀) hstep.1
                rw [hchild]
                apply ihm
                · omega
                · omega
                · exact hch.tail.infix (List.dropWhile_suffix _).isInfix
                · exact dropWhile_head_le ys (count_leading_tabs l₀) p₂
                    (by omega)
    intro ls hlen hch p hhd st
    cases ls with
    | nil => unfold parse_lines; rfl
    | cons x xs =>
      unfold parse_lines
      dsimp only
      rw [scanBand_state_preserved (x :: xs) p st hch hhd]
      split
      · exact harr (n + 1) (x :: xs) hlen hlen hch p hhd st
      · exact hobj (n + 1) (x :: xs) hlen hlen hch p hhd st []



/-- The validator's accepting-run facts transfer to the enumerated
kept-line list the parser walks. -/
theorem chainOK_chain :
    ∀ (ks : List Line) (prev : Int) (had : Bool), chainOK prev had ks →
    ∀ (ils : List (Nat × Line)), ils.map Prod.snd = ks →
    List.Chain' stepOK ils := by
  intro ks
  induction ks with
  | nil =>
    intro prev had _ ils hmap
    rw [List.map_eq_nil_iff] at hmap
    subst hmap
    exact List.chain'_nil
  | cons l rest ih =>
    intro prev had hck ils hmap
    cases ils with
    | nil => simp at hmap
    | cons y ils₂ =>
      simp only [List.map_cons, List.cons.injEq] at hmap
      obtain ⟨hy, hmap₂⟩ := hmap
      have hch₂ := ih (count_leading_tabs l) (contentHasTab l) hck.2.2
        ils₂ hmap₂
      rw [List.chain'_cons']
      refine ⟨?_, hch₂⟩
      intro z hz
      cases ils₂ with
      | nil => simp at hz
      | cons z₀ w =>
        simp only [List.head?_cons, Option.mem_def, Option.some.injEq] at hz
        subst hz
        cases rest with
        | nil => simp at hmap₂
        | cons l₂ rest₂ =>
          simp only [List.map_cons, List.cons.injEq] at hmap₂
          obtain ⟨hz₂, _⟩ := hmap₂
          have h₁ : (count_leading_tabs l₂ : Int) ≤ count_leading_tabs l + 1 :=
            hck.2.2.1
          have h₂ : (count_leading_tabs l₂ : Int) > count_leading_tabs l →
              contentHasTab l = false := hck.2.2.2.1
          constructor
          · rw [hy, hz₂]; exact h₁
          · intro heq
            rw [hy]
            apply h₂
            rw [hz₂] at heq
            rw [hy] at heq
            omega

/-- An accepted document's first kept line is at depth 0. -/
theorem chainOK_headLe (ks : List Line) (h : chainOK (-1) false ks)
    (ils : List (Nat × Line)) (hmap : ils.map Prod.snd = ks) :
    headLe ils (-1) := by
  cases ils with
  | nil => trivial
  | cons y t =>
    cases ks with
    | nil => simp at hmap
    | cons l rest =>
      simp only [List.map_cons, List.cons.injEq] at hmap
      show (count_leading_tabs y.2 : Int) ≤ -1 + 1
      rw [hmap.1]
      have := h.1
      omega

/-- C2 amended: if `taml_validate` returns `TAML_OK`, then strict-mode
`taml_parse` produces a Document with an empty diagnostic.  (The converse
direction of the original claim is false -- see the counterexample, where
the validator rejects a tab inside a value but strict parsing stores it
verbatim with no diagnostic.) -/
theorem c2_validate_ok_implies_clean_strict_parse (text : List Char)
    (conv : Bool) (h : taml_validate text = none) :
    (taml_parse text true conv).err = none := by
  unfold taml_parse
  dsimp only
  have hck := taml_validate_chain text h
  have hch := chainOK_chain (keptOf text) (-1) false hck
    (keptOf text).enum (List.enum_map_snd _)
  have hhd := chainOK_headLe (keptOf text) hck (keptOf text).enum
    (List.enum_map_snd _)
  rw [parse_lines_state_preserved (keptOf text).enum.length
    (keptOf text).enum le_rfl hch (-1) hhd ⟨true, conv, none⟩]

/-- C2 witness: the amended implication at the spec's flat-object
scenario, which the validator accepts. -/
theorem c2_validate_witness :
    (taml_parse "name\tJohn\nage\t30\n".toList true true).err = none :=
  c2_validate_ok_implies_clean_strict_parse "name\tJohn\nage\t30\n".toList
    true (by decide)

end Taml

namespace Taml

theorem natDigits_spec : ∀ (m : Nat),
    natDigits m ≠ [] ∧ (∀ a ∈ natDigits m, a.isDigit = true) := by
  intro m
  induction m using Nat.strong_induction_on with
  | _ m ih =>
    unfold natDigits
    by_cases h : m < 10
    · rw [if_pos h]
      refine ⟨by simp, ?_⟩
      intro a ha
      simp only [List.mem_singleton] at ha
      subst ha
      show (Char.ofNat (48 + m)).isDigit = true
      interval_cases m <;> decide
    · rw [if_neg h]
      have hd := ih (m / 10) (Nat.div_lt_self (by omega) (by omega))
      refine ⟨by simp, ?_⟩
      intro a ha
      rw [List.mem_append] at ha
      rcases ha with ha | ha
      · exact hd.2 a ha
      · simp only [List.mem_singleton] at ha
        subst ha
        have h9 : m % 10 < 10 := Nat.mod_lt _ (by omega)
        show (Char.ofNat (48 + m % 10)).isDigit = true
        set r := m % 10 with hr
        interval_cases r <;> decide

theorem natVal_append_digit (ds : Line) (c : Char) :
    natVal (ds ++ [c]) = 10 * natVal ds + (c.toNat - '0'.toNat) := by
  unfold natVal
  rw [List.foldl_append]
  simp [Nat.mul_comm]

theorem decDigit_val (r : Nat) (h : r < 10) :
    (decDigit r).toNat - '0'.toNat = r := by
  unfold decDigit
  interval_cases r <;> decide

theorem natVal_natDigits : ∀ (m : Nat), natVal (natDigits m) = m := by
  intro m
  induction m using Nat.strong_induction_on with
  | _ m ih =>
    unfold natDigits
    by_cases h : m < 10
    · rw [if_pos h]
      have : natVal [decDigit m] = (decDigit m).toNat - '0'.toNat := by
        unfold natVal
        simp
      rw [this, decDigit_val m h]
    · rw [if_neg h]
      rw [natVal_append_digit]
      rw [ih (m / 10) (Nat.div_lt_self (by omega) (by omega))]
      rw [decDigit_val (m % 10) (Nat.mod_lt _ (by omega))]
      omega

end Taml

namespace Taml

theorem digit_char_facts (a : Char) (h : a.isDigit = true) :
    a ≠ '+' ∧ a ≠ '-' ∧ a ≠ '.' ∧ a ≠ '\t' ∧ a ≠ '\n' ∧ a ≠ '#' ∧
    a ≠ '~' ∧ isspaceC a = false := by
  refine ⟨?_, ?_, ?_, ?_, ?_, ?_, ?_, ?_⟩
  · rintro rfl; simp at h
  · rintro rfl; simp at h
  · rintro rfl; simp at h
  · rintro rfl; simp at h
  · rintro rfl; simp at h
  · rintro rfl; simp at h
  · rintro rfl; simp at h
  · have h1 : a ≠ ' ' := by rintro rfl; simp at h
    have h2 : a ≠ '\t' := by rintro rfl; simp at h
    have h3 : a ≠ '\n' := by rintro rfl; simp at h
    have h4 : a ≠ '\x0b' := by rintro rfl; simp at h
    have h5 : a ≠ '\x0c' := by rintro rfl; simp at h
    have h6 : a ≠ '\r' := by rintro rfl; simp at h
    simp [isspaceC, h1, h2, h3, h4, h5, h6]

theorem trim_eq_of_no_ws (l : Line) (h : ∀ a ∈ l, isspaceC a = false) :
    trim_trailing_whitespace l = l := by
  cases l with
  | nil => rfl
  | cons c rest =>
    show c :: (rest.reverse.dropWhile isspaceC).reverse = c :: rest
    have : rest.reverse.dropWhile isspaceC = rest.reverse := by
      cases hr : rest.reverse with
      | nil => rfl
      | cons b bs =>
        rw [List.dropWhile_cons, if_neg]
        have hb : b ∈ rest := by
          rw [← List.mem_reverse, hr]
          simp
        simp [h b (List.mem_cons_of_mem c hb)]
    rw [this, List.reverse_reverse]

theorem numScan_all_digits : ∀ (l : Line), (∀ a ∈ l, a.isDigit = true) →
    ∀ (hd : Bool), numScan l hd true = true ∧
      (l ≠ [] → numScan l hd false = true) := by
  intro l
  induction l with
  | nil =>
    intro _ hd
    exact ⟨rfl, fun h => absurd rfl h⟩
  | cons c rest ih =>
    intro hall hd
    have hc := hall c (by simp)
    have hrest : ∀ a ∈ rest, a.isDigit = true :=
      fun a ha => hall a (List.mem_cons_of_mem c ha)
    constructor
    · show numScan (c :: rest) hd true = true
      unfold numScan
      rw [if_pos hc]
      exact (ih hrest hd).1
    · intro _
      show numScan (c :: rest) hd false = true
      unfold numScan
      rw [if_pos hc]
      exact (ih hrest hd).1

theorem serializeInt_mem (n : Int) (a : Char) (h : a ∈ serializeInt n) :
    a.isDigit = true ∨ a = '-' := by
  unfold serializeInt at h
  split at h
  · simp only [List.mem_cons] at h
    rcases h with h | h
    · exact Or.inr h
    · exact Or.inl ((natDigits_spec _).2 a h)
  · exact Or.inl ((natDigits_spec _).2 a h)

theorem serializeInt_ne_nil (n : Int) : serializeInt n ≠ [] := by
  unfold serializeInt
  split
  · simp
  · exact (natDigits_spec _).1

theorem serializeInt_no_char (n : Int) (c : Char)
    (hc : ¬c.isDigit = true) (hm : ¬c = '-') : ¬c ∈ serializeInt n := by
  intro h
  rcases serializeInt_mem n c h with h | h
  · exact hc h
  · exact hm h

theorem atoll_serializeInt (n : Int) : atoll (serializeInt n) = n := by
  have hnospace : (serializeInt n).dropWhile isspaceC = serializeInt n := by
    cases hs : serializeInt n with
    | nil => rfl
    | cons c rest =>
      rw [List.dropWhile_cons, if_neg]
      have hc : c ∈ serializeInt n := by rw [hs]; simp
      rcases serializeInt_mem n c hc with h | h
      · simp [(digit_char_facts c h).2.2.2.2.2.2.2]
      · subst h; decide
  unfold atoll
  rw [hnospace]
  unfold serializeInt
  by_cases hn : n < 0
  · rw [if_pos hn]
    have hval : natVal ((natDigits (-n).toNat).takeWhile Char.isDigit)
        = (-n).toNat := by
      rw [List.takeWhile_eq_self_iff.mpr (natDigits_spec _).2]
      exact natVal_natDigits _
    simp only
    rw [hval]
    omega
  · rw [if_neg hn]
    obtain ⟨c, rest, hcr⟩ : ∃ c rest, natDigits n.toNat = c :: rest := by
      cases hq : natDigits n.toNat with
      | nil => exact absurd hq (natDigits_spec _).1
      | cons c rest => exact ⟨c, rest, rfl⟩
    have hcd : c.isDigit = true := (natDigits_spec _).2 c (by rw [hcr]; simp)
    have hfacts := digit_char_facts c hcd
    rw [hcr]
    have hval : natVal ((c :: rest).takeWhile Char.isDigit) = n.toNat := by
      rw [← hcr, List.takeWhile_eq_self_iff.mpr (natDigits_spec _).2]
      exact natVal_natDigits _
    dsimp only
    split
    · next r heq =>
      exfalso
      have : c = '-' := by
        have := congrArg List.head? heq
        simpa using this
      exact hfacts.2.1 this
    · next r heq =>
      exfalso
      have : c = '+' := by
        have := congrArg List.head? heq
        simpa using this
      exact hfacts.1 this
    · rw [hval]; omega

end Taml

namespace Taml

theorem is_numeric_serializeInt (n : Int) :
    is_numeric (serializeInt n) = true := by
  unfold serializeInt
  by_cases hn : n < 0
  · rw [if_pos hn]
    show is_numeric ('-' :: natDigits (-n).toNat) = true
    unfold is_numeric
    dsimp only
    rw [if_pos (by decide)]
    exact (numScan_all_digits _ (natDigits_spec _).2 false).2 (natDigits_spec _).1
  · rw [if_neg hn]
    obtain ⟨c, rest, hcr⟩ : ∃ c rest, natDigits n.toNat = c :: rest := by
      cases hq : natDigits n.toNat with
      | nil => exact absurd hq (natDigits_spec _).1
      | cons c rest => exact ⟨c, rest, rfl⟩
    have hcd : c.isDigit = true := (natDigits_spec _).2 c (by rw [hcr]; simp)
    have hfacts := digit_char_facts c hcd
    rw [hcr]
    unfold is_numeric
    dsimp only
    rw [if_neg (by simp [hfacts.1, hfacts.2.1])]
    exact ((numScan_all_digits (c :: rest)
      (by rw [← hcr]; exact (natDigits_spec _).2) false).2) (by simp)

theorem serializeInt_no_dot (n : Int) :
    (serializeInt n).contains '.' = false := by
  cases hq : (serializeInt n).contains '.'
  · rfl
  · exfalso
    have : '.' ∈ serializeInt n := by simpa using hq
    exact serializeInt_no_char n '.' (by decide) (by decide) this

theorem convert_serializeInt (n : Int) :
    convert_value (serializeInt n) true = .int n := by
  have hne : serializeInt n ≠ "~".toList := by
    intro h
    exact serializeInt_no_char n '~' (by decide) (by decide) (by rw [h]; simp)
  have hne₂ : serializeInt n ≠ "\"\"".toList := by
    intro h
    exact serializeInt_no_char n '\"' (by decide) (by decide) (by rw [h]; simp)
  have hne₃ : serializeInt n ≠ "true".toList := by
    intro h
    exact serializeInt_no_char n 't' (by decide) (by decide) (by rw [h]; simp)
  have hne₄ : serializeInt n ≠ "false".toList := by
    intro h
    exact serializeInt_no_char n 'f' (by decide) (by decide) (by rw [h]; simp)
  unfold convert_value
  rw [if_neg hne, if_neg hne₂]
  rw [if_neg (by
    simp only [is_boolean, Bool.true_and, Bool.or_eq_true, decide_eq_true_eq]
    push_neg
    exact ⟨hne₃, hne₄⟩)]
  rw [if_pos (by simp [is_numeric_serializeInt n])]
  rw [if_neg (by
    intro hcc
    exact serializeInt_no_char n '.' (by decide) (by decide)
      (by simpa using hcc)), atoll_serializeInt n]

theorem convert_roundtrip (v : Value) (d : Nat) (hv : wfScalar v = true) :
    convert_value (serialize_value v d) true = v := by
  cases v with
  | null => rfl
  | bool b => cases b <;> rfl
  | int n => exact convert_serializeInt n
  | float q => simp [wfScalar] at hv
  | str s =>
    by_cases hs : s.isEmpty = true
    · have : s = [] := by simpa using hs
      subst this
      rfl
    · have hsf : wfStr s = true := hv
      unfold wfStr at hsf
      rw [Bool.or_eq_true] at hsf
      rcases hsf with hsf | hsf
      · exact absurd hsf hs
      · simp only [Bool.and_eq_true, Bool.not_eq_true', decide_eq_false_iff_not,
          decide_eq_true_eq] at hsf
        obtain ⟨⟨⟨⟨⟨⟨⟨hA, hB⟩, hC⟩, hD⟩, hE⟩, hF⟩, hG⟩, htrim⟩ := hsf
        show convert_value (if s.isEmpty then _ else s) true = .str s
        rw [if_neg (by simp [hs])]
        unfold convert_value
        rw [if_neg hA.1, if_neg hA.2]
        rw [if_neg (by
          simp only [is_boolean, Bool.true_and, Bool.or_eq_true,
            decide_eq_true_eq]
          push_neg
          exact ⟨hB, hC⟩)]
        rw [if_neg (by simp [hD])]
  | obj ps => simp [wfScalar] at hv
  | arr its => simp [wfScalar] at hv

end Taml

namespace Taml

theorem count_indent_append (d : Nat) (l : Line) :
    count_leading_tabs (indentChars d ++ l) = d + count_leading_tabs l := by
  induction d with
  | zero => simp [indentChars]
  | succ d ih =>
    show count_leading_tabs (List.replicate (d + 1) '\t' ++ l) = _
    rw [List.replicate_succ]
    show count_leading_tabs ('\t' :: (List.replicate d '\t' ++ l)) = _
    unfold count_leading_tabs
    rw [List.takeWhile_cons, if_pos (by decide)]
    simp only [List.length_cons]
    have := ih
    unfold indentChars count_leading_tabs at this
    rw [this]
    omega

theorem count_no_tab (l : Line) (h : '\t' ∉ l) :
    count_leading_tabs l = 0 := by
  cases l with
  | nil => rfl
  | cons c rest =>
    unfold count_leading_tabs
    rw [List.takeWhile_cons, if_neg]
    · rfl
    · simp only [decide_eq_true_eq]
      intro he
      exact h (by rw [he]; simp)

theorem dropWhile_indent_append (d : Nat) (l : Line) :
    (indentChars d ++ l).dropWhile (fun c => c = '\t')
      = l.dropWhile (fun c => c = '\t') := by
  induction d with
  | zero => simp [indentChars]
  | succ d ih =>
    show (List.replicate (d + 1) '\t' ++ l).dropWhile _ = _
    rw [List.replicate_succ]
    show (('\t' :: (List.replicate d '\t' ++ l)).dropWhile fun c => c = '\t')
      = _
    rw [List.dropWhile_cons, if_pos (by decide)]
    exact ih

theorem dropWhile_no_tab (l : Line) (h : '\t' ∉ l) :
    l.dropWhile (fun c => c = '\t') = l := by
  cases l with
  | nil => rfl
  | cons c rest =>
    rw [List.dropWhile_cons, if_neg]
    simp only [decide_eq_true_eq]
    intro he
    exact h (by rw [he]; simp)

theorem joinLines_append (a b : List Line) :
    joinLines (a ++ b) = joinLines a ++ joinLines b := by
  induction a with
  | nil => rfl
  | cons l rest ih =>
    show (l ++ '\n' :: joinLines (rest ++ b))
      = (l ++ '\n' :: joinLines rest) ++ joinLines b
    rw [ih]
    simp

theorem splitNl_line (l : Line) (cs : List Char) (h : '\n' ∉ l) :
    splitNl (l ++ '\n' :: cs) = l :: splitNl cs := by
  induction l with
  | nil =>
    show splitNl ('\n' :: cs) = [] :: splitNl cs
    simp only [splitNl]
    simp
  | cons c rest ih =>
    have hc : ¬(c = '\n') := fun he => h (by rw [he]; simp)
    show splitNl (c :: (rest ++ '\n' :: cs)) = (c :: rest) :: splitNl cs
    simp only [splitNl]
    rw [if_neg hc]
    rw [ih (fun hm => h (List.mem_cons_of_mem c hm))]

theorem splitNl_joinLines (lines : List Line)
    (h : ∀ l ∈ lines, '\n' ∉ l) :
    splitNl (joinLines lines) = lines ++ [[]] := by
  induction lines with
  | nil => rfl
  | cons l rest ih =>
    show splitNl (l ++ '\n' :: joinLines rest) = (l :: rest) ++ [[]]
    rw [splitNl_line l _ (h l (by simp))]
    rw [ih (fun x hx => h x (List.mem_cons_of_mem l hx))]
    rfl

theorem keptOf_joinLines (lines : List Line)
    (h : ∀ l ∈ lines, l ≠ [] ∧ ('\n' ∉ l) ∧ keptLine l = true) :
    keptOf (joinLines lines) = lines := by
  unfold keptOf tokensOf
  rw [splitNl_joinLines lines (fun l hl => (h l hl).2.1)]
  rw [List.filter_append]
  have h₁ : lines.filter (fun l => !l.isEmpty) = lines :=
    List.filter_eq_self.mpr (fun l hl => by simp [(h l hl).1])
  have h₂ : ([([] : Line)].filter (fun l => !l.isEmpty)) = [] := rfl
  rw [h₁, h₂, List.append_nil]
  exact List.filter_eq_self.mpr (fun l hl => (h l hl).2.2)

theorem takeWhile_eq_of_split (q : α → Bool) (A B : List α)
    (hA : ∀ a ∈ A, q a = true) (hB : ∀ b ∈ B.head?, q b = false) :
    (A ++ B).takeWhile q = A ∧ (A ++ B).dropWhile q = B := by
  induction A with
  | nil =>
    simp only [List.nil_append]
    cases B with
    | nil => exact ⟨rfl, rfl⟩
    | cons b bs =>
      have := hB b (by simp)
      rw [List.takeWhile_cons, List.dropWhile_cons]
      rw [if_neg (by simp [this]), if_neg (by simp [this])]
      exact ⟨rfl, rfl⟩
  | cons a as ih =>
    have ha := hA a (by simp)
    obtain ⟨iht, ihd⟩ := ih (fun x hx => hA x (List.mem_cons_of_mem a hx))
    constructor
    · show ((a :: (as ++ B)).takeWhile q) = a :: as
      rw [List.takeWhile_cons, if_pos ha, iht]
    · show ((a :: (as ++ B)).dropWhile q) = B
      rw [List.dropWhile_cons, if_pos ha, ihd]

theorem containsKey_mem (ps : List (Line × Value)) (k : Line) :
    containsKey ps k = true ↔ k ∈ ps.map Prod.fst := by
  induction ps with
  | nil =>
    have hz : containsKey [] k = false := rfl
    rw [hz]
    simp
  | cons p rest ih =>
    obtain ⟨k₁, v₁⟩ := p
    by_cases e : k₁ = k
    · have hz : containsKey ((k₁, v₁) :: rest) k = true := by
        simp [containsKey, lookupPairs, e]
      rw [hz]
      constructor
      · intro _
        rw [List.map_cons, e]
        exact List.mem_cons_self _ _
      · intro _
        rfl
    · have hstep : containsKey ((k₁, v₁) :: rest) k = containsKey rest k := by
        simp [containsKey, lookupPairs, e]
      rw [hstep, ih, List.map_cons, List.mem_cons]
      constructor
      · exact Or.inr
      · rintro (hk | hk)
        · exact absurd hk.symm e
        · exact hk

end Taml

namespace Taml

theorem scalarSer_facts (v : Value) (d : Nat) (hv : wfScalar v = true) :
    serialize_value v d ≠ [] ∧
    ('\n' ∉ serialize_value v d) ∧
    ('\t' ∉ serialize_value v d) ∧
    ¬((serialize_value v d).head? = some '#') ∧
    trim_trailing_whitespace (serialize_value v d) = serialize_value v d := by
  cases v with
  | null =>
    have he : serialize_value Value.null d = "~".toList := by
      simp [serialize_value]
    rw [he]
    exact ⟨by decide, by decide, by decide, by decide, by decide⟩
  | bool b =>
    have he : serialize_value (Value.bool b) d
        = (if b then "true".toList else "false".toList) := by
      simp [serialize_value]
    rw [he]
    cases b
    · exact ⟨by decide, by decide, by decide, by decide, by decide⟩
    · exact ⟨by decide, by decide, by decide, by decide, by decide⟩
  | int n =>
    have he : serialize_value (Value.int n) d = serializeInt n := by
      simp [serialize_value]
    rw [he]
    refine ⟨serializeInt_ne_nil n, ?_, ?_, ?_, ?_⟩
    · exact serializeInt_no_char n '\n' (by decide) (by decide)
    · exact serializeInt_no_char n '\t' (by decide) (by decide)
    · intro hh
      have hmem : '#' ∈ serializeInt n := by
        cases hs : serializeInt n with
        | nil => rw [hs] at hh; simp at hh
        | cons c rest =>
          rw [hs] at hh
          simp only [List.head?_cons, Option.some.injEq] at hh
          subst hh
          simp
      exact serializeInt_no_char n '#' (by decide) (by decide) hmem
    · apply trim_eq_of_no_ws
      intro a ha
      rcases serializeInt_mem n a ha with h | h
      · exact (digit_char_facts a h).2.2.2.2.2.2.2
      · subst h; decide
  | float q => simp [wfScalar] at hv
  | str s =>
    by_cases hs : s.isEmpty = true
    · have hsz : s = [] := by simpa using hs
      subst hsz
      have he : serialize_value (Value.str []) d = "\"\"".toList := by
        simp [serialize_value]
      rw [he]
      exact ⟨by decide, by decide, by decide, by decide, by decide⟩
    · have hsf : wfStr s = true := hv
      unfold wfStr at hsf
      rw [Bool.or_eq_true] at hsf
      rcases hsf with hsf | hsf
      · exact absurd hsf hs
      · simp only [Bool.and_eq_true, Bool.not_eq_true', decide_eq_false_iff_not,
          decide_eq_true_eq] at hsf
        obtain ⟨⟨⟨⟨⟨⟨⟨hA, hB⟩, hC⟩, hD⟩, hE⟩, hF⟩, hG⟩, htrim⟩ := hsf
        have hser : serialize_value (Value.str s) d = s := by
          simp [serialize_value, hs]
        rw [hser]
        refine ⟨by simpa using hs, ?_, ?_, hG, htrim.symm⟩
        · simpa using hF
        · simpa using hE
  | obj ps => simp [wfScalar] at hv
  | arr its => simp [wfScalar] at hv

end Taml

namespace Taml

theorem count_head_not_tab (l : Line) (h : ¬l.head? = some '\t') :
    count_leading_tabs l = 0 := by
  cases l with
  | nil => rfl
  | cons c rest =>
    unfold count_leading_tabs
    rw [List.takeWhile_cons, if_neg]
    · rfl
    · simp only [decide_eq_true_eq]
      intro he
      subst he
      exact h rfl

theorem dropWhile_head_not_tab (l : Line) (h : ¬l.head? = some '\t') :
    l.dropWhile (fun c => c = '\t') = l := by
  cases l with
  | nil => rfl
  | cons c rest =>
    rw [List.dropWhile_cons, if_neg]
    simp only [decide_eq_true_eq]
    intro he
    subst he
    exact h rfl

theorem wfKey_unpack (k : Line) (h : wfKey k = true) :
    k ≠ [] ∧ ('\t' ∉ k) ∧ ('\n' ∉ k) ∧ ¬(k.head? = some '#') ∧
    k = trim_trailing_whitespace k := by
  unfold wfKey at h
  simp only [Bool.and_eq_true, Bool.not_eq_true', decide_eq_false_iff_not,
    decide_eq_true_eq] at h
  obtain ⟨⟨⟨⟨h1, h2⟩, h3⟩, h4⟩, h5⟩ := h
  refine ⟨by simpa using h1, by simpa using h2, by simpa using h3, h4, h5⟩

theorem keyLine_facts (d : Nat) (k : Line) (h : wfKey k = true) :
    (indentChars d ++ k) ≠ [] ∧ ('\n' ∉ indentChars d ++ k) ∧
    keptLine (indentChars d ++ k) = true ∧
    count_leading_tabs (indentChars d ++ k) = d := by
  obtain ⟨h1, h2, h3, h4, _⟩ := wfKey_unpack k h
  have hhead : ¬(k.head? = some '\t') := by
    cases k with
    | nil => simp
    | cons c rest =>
      simp only [List.head?_cons, Option.some.injEq]
      intro he
      exact h2 (by rw [he]; simp)
  refine ⟨?_, ?_, ?_, ?_⟩
  · simp [h1]
  · intro hm
    rw [List.mem_append] at hm
    rcases hm with hm | hm
    · have := List.eq_of_mem_replicate hm
      cases this
    · exact h3 hm
  · unfold keptLine
    rw [dropWhile_indent_append, dropWhile_head_not_tab k hhead]
    cases k with
    | nil => exact absurd rfl h1
    | cons c rest =>
      simp only [List.head?_cons, Option.some.injEq] at h4
      simp [h4]
  · rw [count_indent_append, count_head_not_tab k hhead]
    omega

theorem kvLine_facts (d : Nat) (k : Line) (v : Value)
    (hk : wfKey k = true) (hv : wfScalar v = true) :
    (indentChars d ++ k ++ '\t' :: serialize_value v d) ≠ [] ∧
    ('\n' ∉ indentChars d ++ k ++ '\t' :: serialize_value v d) ∧
    keptLine (indentChars d ++ k ++ '\t' :: serialize_value v d) = true ∧
    count_leading_tabs (indentChars d ++ k ++ '\t' :: serialize_value v d)
      = d := by
  obtain ⟨h1, h2, h3, h4, _⟩ := wfKey_unpack k hk
  obtain ⟨s1, s2, s3, s4, s5⟩ := scalarSer_facts v d hv
  have hhead : ¬((k ++ '\t' :: serialize_value v d).head? = some '\t') := by
    cases k with
    | nil => exact absurd rfl h1
    | cons c rest =>
      simp only [List.cons_append, List.head?_cons, Option.some.injEq]
      intro he
      exact h2 (by rw [he]; simp)
  refine ⟨?_, ?_, ?_, ?_⟩
  · simp
  · intro hm
    rw [List.append_assoc, List.mem_append] at hm
    rcases hm with hm | hm
    · simp only [indentChars] at hm
      exact absurd (List.eq_of_mem_replicate hm) (by decide)
    · rw [List.mem_append] at hm
      rcases hm with hm | hm
      · exact h3 hm
      · rw [List.mem_cons] at hm
        rcases hm with hm | hm
        · exact absurd hm (by decide)
        · exact s2 hm
  · unfold keptLine
    rw [List.append_assoc, dropWhile_indent_append,
      dropWhile_head_not_tab _ hhead]
    cases k with
    | nil => exact absurd rfl h1
    | cons c rest =>
      simp only [List.head?_cons, Option.some.injEq] at h4
      simp [h4]
  · rw [List.append_assoc, count_indent_append, count_head_not_tab _ hhead]
    omega

theorem scalarLine_facts (d : Nat) (v : Value) (hv : wfScalar v = true) :
    (indentChars d ++ serialize_value v d) ≠ [] ∧
    ('\n' ∉ indentChars d ++ serialize_value v d) ∧
    keptLine (indentChars d ++ serialize_value v d) = true ∧
    count_leading_tabs (indentChars d ++ serialize_value v d) = d := by
  obtain ⟨s1, s2, s3, s4, s5⟩ := scalarSer_facts v d hv
  have hhead : ¬((serialize_value v d).head? = some '\t') := by
    cases hs : serialize_value v d with
    | nil => exact absurd hs s1
    | cons c rest =>
      simp only [List.head?_cons, Option.some.injEq]
      intro he
      exact s3 (by rw [hs, he]; simp)
  refine ⟨?_, ?_, ?_, ?_⟩
  · simp [s1]
  · intro hm
    rw [List.mem_append] at hm
    rcases hm with hm | hm
    · exact absurd (List.eq_of_mem_replicate hm) (by decide)
    · exact s2 hm
  · unfold keptLine
    rw [dropWhile_indent_append, dropWhile_head_not_tab _ hhead]
    cases hs : serialize_value v d with
    | nil => exact absurd hs s1
    | cons c rest =>
      rw [hs] at s4
      simp only [List.head?_cons, Option.some.injEq] at s4
      simp [s4]
  · rw [count_indent_append, count_head_not_tab _ hhead]
    omega

end Taml

namespace Taml

theorem wfScalar_isScalar (v : Value) (h : wfScalar v = true) :
    isScalar v = true := by
  cases v <;> first | rfl | simp [wfScalar] at h

theorem objLines_cons_scalar (k : Line) (v : Value) (rest : List (Line × Value))
    (d : Nat) (h : isScalar v = true) :
    objLines ((k, v) :: rest) d
      = (indentChars d ++ k ++ '\t' :: serialize_value v d)
          :: objLines rest d := by
  cases v
  case obj => simp [isScalar] at h
  case arr => simp [isScalar] at h
  all_goals simp [objLines]

theorem objLines_cons_cont (k : Line) (v : Value) (rest : List (Line × Value))
    (d : Nat) (h : isScalar v = false) :
    objLines ((k, v) :: rest) d
      = (indentChars d ++ k) :: (valLines v (d + 1) ++ objLines rest d) := by
  cases v
  case obj => simp [objLines]
  case arr => simp [objLines]
  all_goals simp [isScalar] at h

theorem serializeObj_cons_scalar (k : Line) (v : Value)
    (rest : List (Line × Value)) (d : Nat) (h : isScalar v = true) :
    serializeObj ((k, v) :: rest) d
      = indentChars d ++ k ++ '\t' :: (serialize_value v d ++ ['\n'])
          ++ serializeObj rest d := by
  cases v
  case obj => simp [isScalar] at h
  case arr => simp [isScalar] at h
  all_goals simp [serializeObj]

theorem serializeObj_cons_cont (k : Line) (v : Value)
    (rest : List (Line × Value)) (d : Nat) (h : isScalar v = false) :
    serializeObj ((k, v) :: rest) d
      = indentChars d ++ k ++ '\n' :: serialize_value v (d + 1)
          ++ serializeObj rest d := by
  cases v
  case obj => simp [serializeObj]
  case arr => simp [serializeObj]
  all_goals simp [isScalar] at h

theorem arrLines_cons_scalar (v : Value) (rest : List Value) (d : Nat)
    (h : isScalar v = true) :
    arrLines (v :: rest) d
      = (indentChars d ++ serialize_value v d) :: arrLines rest d := by
  cases v
  case obj => simp [isScalar] at h
  case arr => simp [isScalar] at h
  all_goals simp [arrLines]

theorem serializeArr_cons_scalar (v : Value) (rest : List Value) (d : Nat)
    (h : isScalar v = true) :
    serializeArr (v :: rest) d
      = indentChars d ++ (serialize_value v d ++ ['\n'])
          ++ serializeArr rest d := by
  cases v
  case obj => simp [isScalar] at h
  case arr => simp [isScalar] at h
  all_goals simp [serializeArr]

end Taml

namespace Taml

theorem lines_bundle : ∀ N v, sizeV v ≤ N → wfValue v = true → ∀ d : Nat,
    (∀ l ∈ valLines v d, l ≠ [] ∧ ('\n' ∉ l) ∧ keptLine l = true ∧
      d ≤ count_leading_tabs l) ∧
    (∃ l₀ ls₀, valLines v d = l₀ :: ls₀ ∧ count_leading_tabs l₀ = d) ∧
    serialize_value v d = joinLines (valLines v d) := by
  intro N
  induction N with
  | zero =>
    intro v hsz
    exfalso
    cases v <;> simp [sizeV] at hsz
  | succ N ihN =>
    intro v hsz hwf d
    cases v with
    | null => simp [wfValue] at hwf
    | bool b => simp [wfValue] at hwf
    | int n => simp [wfValue] at hwf
    | float q => simp [wfValue] at hwf
    | str s => simp [wfValue] at hwf
    | obj pairs =>
      simp only [wfValue, Bool.and_eq_true, Bool.not_eq_true'] at hwf
      obtain ⟨⟨hne, _hkd⟩, hwp⟩ := hwf
      have hszp : sizePairs pairs ≤ N := by
        simp only [sizeV] at hsz
        omega
      have hP : ∀ ps : List (Line × Value), sizePairs ps ≤ N →
          wfPairs ps = true →
          (∀ l ∈ objLines ps d, l ≠ [] ∧ ('\n' ∉ l) ∧ keptLine l = true ∧
            d ≤ count_leading_tabs l) ∧
          (∀ k₀ v₀ r₀, ps = (k₀, v₀) :: r₀ →
            ∃ l₀ ls₀, objLines ps d = l₀ :: ls₀ ∧
              count_leading_tabs l₀ = d) ∧
          serializeObj ps d = joinLines (objLines ps d) := by
        intro ps
        induction ps with
        | nil =>
          intro _ _
          refine ⟨?_, ?_, ?_⟩
          · intro l hl
            simp [objLines] at hl
          · intro k₀ v₀ r₀ h
            exact List.noConfusion h
          · simp [serializeObj, objLines, joinLines]
        | cons p rest ihp =>
          obtain ⟨k, v⟩ := p
          intro hsp hwp2
          simp only [wfPairs, Bool.and_eq_true, Bool.or_eq_true] at hwp2
          obtain ⟨⟨hk, hv⟩, hrest⟩ := hwp2
          have h1v : 1 ≤ sizeV v := by cases v <;> simp [sizeV]
          have hsp' : sizePairs rest ≤ N ∧ sizeV v ≤ N := by
            simp only [sizePairs] at hsp
            omega
          obtain ⟨ihA, ihB, ihC⟩ := ihp hsp'.1 hrest
          rcases hv with hsc | hcv
          · have heL := objLines_cons_scalar k v rest d
              (wfScalar_isScalar v hsc)
            have heS := serializeObj_cons_scalar k v rest d
              (wfScalar_isScalar v hsc)
            obtain ⟨f1, f2, f3, f4⟩ := kvLine_facts d k v hk hsc
            refine ⟨?_, ?_, ?_⟩
            · intro l hl
              rw [heL, List.mem_cons] at hl
              rcases hl with hl | hl
              · subst hl
                exact ⟨f1, f2, f3, by omega⟩
              · exact ihA l hl
            · intro k₀ v₀ r₀ _
              exact ⟨_, _, heL, f4⟩
            · rw [heS, heL]
              simp only [joinLines]
              rw [ihC]
              simp
          · have hnsc : isScalar v = false := by
              cases v <;> first | rfl | simp [wfValue] at hcv
            have heL := objLines_cons_cont k v rest d hnsc
            have heS := serializeObj_cons_cont k v rest d hnsc
            obtain ⟨g1, g2, g3⟩ := ihN v hsp'.2 hcv (d + 1)
            obtain ⟨f1, f2, f3, f4⟩ := keyLine_facts d k hk
            refine ⟨?_, ?_, ?_⟩
            · intro l hl
              rw [heL, List.mem_cons] at hl
              rcases hl with hl | hl
              · subst hl
                exact ⟨f1, f2, f3, by omega⟩
              · rw [List.mem_append] at hl
                rcases hl with hl | hl
                · obtain ⟨a1, a2, a3, a4⟩ := g1 l hl
                  exact ⟨a1, a2, a3, by omega⟩
                · exact ihA l hl
            · intro k₀ v₀ r₀ _
              exact ⟨_, _, heL, f4⟩
            · rw [heS, heL]
              simp only [joinLines]
              rw [ihC, g3, joinLines_append]
              simp
      obtain ⟨hA, hB, hC⟩ := hP pairs hszp hwp
      have hval : valLines (Value.obj pairs) d = objLines pairs d := by
        simp [valLines]
      have hser : serialize_value (Value.obj pairs) d
          = serializeObj pairs d := by
        simp [serialize_value]
      cases pairs with
      | nil => simp at hne
      | cons p r =>
        obtain ⟨k₀, v₀⟩ := p
        obtain ⟨l₀, ls₀, he, hc⟩ := hB k₀ v₀ r rfl
        refine ⟨by rw [hval]; exact hA, ⟨l₀, ls₀, by rw [hval, he], hc⟩, ?_⟩
        rw [hval, hser]
        exact hC
    | arr items =>
      simp only [wfValue, Bool.and_eq_true, Bool.not_eq_true'] at hwf
      obtain ⟨hne, hwi⟩ := hwf
      have hA2 : ∀ its : List Value, wfItems its = true →
          (∀ l ∈ arrLines its d, l ≠ [] ∧ ('\n' ∉ l) ∧ keptLine l = true ∧
            d ≤ count_leading_tabs l) ∧
          (∀ v₀ r₀, its = v₀ :: r₀ →
            ∃ l₀ ls₀, arrLines its d = l₀ :: ls₀ ∧
              count_leading_tabs l₀ = d) ∧
          serializeArr its d = joinLines (arrLines its d) := by
        intro its
        induction its with
        | nil =>
          intro _
          refine ⟨?_, ?_, ?_⟩
          · intro l hl
            simp [arrLines] at hl
          · intro v₀ r₀ h
            exact List.noConfusion h
          · simp [serializeArr, arrLines, joinLines]
        | cons v rest ihp =>
          intro hwi2
          simp only [wfItems, Bool.and_eq_true] at hwi2
          obtain ⟨hsc, hrest⟩ := hwi2
          obtain ⟨ihA, ihB, ihC⟩ := ihp hrest
          have heL := arrLines_cons_scalar v rest d (wfScalar_isScalar v hsc)
          have heS := serializeArr_cons_scalar v rest d
            (wfScalar_isScalar v hsc)
          obtain ⟨f1, f2, f3, f4⟩ := scalarLine_facts d v hsc
          refine ⟨?_, ?_, ?_⟩
          · intro l hl
            rw [heL, List.mem_cons] at hl
            rcases hl with hl | hl
            · subst hl
              exact ⟨f1, f2, f3, by omega⟩
            · exact ihA l hl
          · intro v₀ r₀ _
            exact ⟨_, _, heL, f4⟩
          · rw [heS, heL]
            simp only [joinLines]
            rw [ihC]
            simp
      obtain ⟨hA, hB, hC⟩ := hA2 items hwi
      have hval : valLines (Value.arr items) d = arrLines items d := by
        simp [valLines]
      have hser : serialize_value (Value.arr items) d
          = serializeArr items d := by
        simp [serialize_value]
      cases items with
      | nil => simp at hne
      | cons v₀ r =>
        obtain ⟨l₀, ls₀, he, hc⟩ := hB v₀ r rfl
        refine ⟨by rw [hval]; exact hA, ⟨l₀, ls₀, by rw [hval, he], hc⟩, ?_⟩
        rw [hval, hser]
        exact hC

end Taml

namespace Taml

theorem splitAtFirstTab_none (l : Line) (h : '\t' ∉ l) :
    splitAtFirstTab l = none := by
  induction l with
  | nil => rfl
  | cons c rest ih =>
    unfold splitAtFirstTab
    rw [if_neg (fun he => h (by rw [he]; simp))]
    rw [ih (fun hm => h (List.mem_cons_of_mem c hm))]
    rfl

theorem splitAtFirstTab_append (k : Line) (rest : Line) (h : '\t' ∉ k) :
    splitAtFirstTab (k ++ '\t' :: rest) = some (k, rest) := by
  induction k with
  | nil =>
    show splitAtFirstTab ('\t' :: rest) = some ([], rest)
    unfold splitAtFirstTab
    rw [if_pos rfl]
  | cons c ck ih =>
    show splitAtFirstTab (c :: (ck ++ '\t' :: rest)) = some (c :: ck, rest)
    unfold splitAtFirstTab
    rw [if_neg (fun he => h (by rw [he]; simp))]
    rw [ih (fun hm => h (List.mem_cons_of_mem c hm))]
    rfl

theorem revObj_scalar (v : Value) (h : isScalar v = true) :
    revObj v = v := by
  cases v
  case obj => simp [isScalar] at h
  case arr => simp [isScalar] at h
  all_goals simp [revObj]

theorem objectSetPairs_fresh (acc : List (Line × Value)) (k : Line)
    (v : Value) (h : containsKey acc k = false) :
    objectSetPairs acc k v = (k, v) :: acc := by
  unfold objectSetPairs
  rw [if_neg (by simp [h])]

theorem containsKey_cons_false (a k : Line) (w : Value)
    (acc : List (Line × Value)) (hne : a ≠ k)
    (h : containsKey acc k = false) :
    containsKey ((a, w) :: acc) k = false := by
  simp only [containsKey, lookupPairs, if_neg hne]
  exact h

theorem keysDistinct_unpack (k : Line) (v : Value)
    (rest : List (Line × Value)) (h : keysDistinct ((k, v) :: rest) = true) :
    containsKey rest k = false ∧ keysDistinct rest = true := by
  simp only [keysDistinct, Bool.and_eq_true, Bool.not_eq_true'] at h
  exact h

theorem drop_indent_append (d : Nat) (x : Line) (h : ¬(x.head? = some '\t')) :
    (indentChars d ++ x).drop (count_leading_tabs (indentChars d ++ x))
      = x := by
  rw [dropCount_eq_dropWhile, dropWhile_indent_append,
    dropWhile_head_not_tab x h]

end Taml

namespace Taml

theorem contains_false_of_not_mem (l : Line) (a : Char) (h : a ∉ l) :
    l.contains a = false := by
  induction l with
  | nil => rfl
  | cons c rest ih =>
    simp only [List.contains_cons, Bool.or_eq_false_iff]
    refine ⟨beq_eq_false_iff_ne.mpr (fun he => h ?_), ?_⟩
    · rw [← he]
      exact List.mem_cons_self _ _
    · exact ih (fun hm => h (List.mem_cons_of_mem c hm))

theorem contains_true_of_mem (l : Line) (a : Char) (h : a ∈ l) :
    l.contains a = true := by
  induction l with
  | nil => cases h
  | cons c rest ih =>
    rw [List.mem_cons] at h
    simp only [List.contains_cons, Bool.or_eq_true]
    rcases h with h | h
    · exact Or.inl (by simp [h])
    · exact Or.inr (ih h)

theorem head_ne_tab (l : Line) (h : '\t' ∉ l) : ¬(l.head? = some '\t') := by
  cases l with
  | nil => simp
  | cons c rest =>
    simp only [List.head?_cons, Option.some.injEq]
    intro he
    exact h (by rw [he]; simp)

theorem head_append_ne_tab (k : Line) (tail : Line) (h1 : k ≠ [])
    (h2 : '\t' ∉ k) : ¬((k ++ tail).head? = some '\t') := by
  cases k with
  | nil => exact absurd rfl h1
  | cons c rest =>
    simp only [List.cons_append, List.head?_cons, Option.some.injEq]
    intro he
    exact h2 (by rw [he]; simp)

/-- The first line of a non-empty object band sits exactly at the band
depth. -/
theorem objLines_head_count (ps : List (Line × Value)) (dd : Nat)
    (hwf : wfPairs ps = true) :
    ∀ l ∈ (objLines ps dd).head?, count_leading_tabs l = dd := by
  cases ps with
  | nil =>
    intro l hl
    simp [objLines] at hl
  | cons p r =>
    obtain ⟨k, v⟩ := p
    simp only [wfPairs, Bool.and_eq_true, Bool.or_eq_true] at hwf
    obtain ⟨⟨hk, hv⟩, _⟩ := hwf
    intro l hl
    rcases hv with hsc | hcv
    · rw [objLines_cons_scalar k v r dd (wfScalar_isScalar v hsc)] at hl
      simp only [List.head?_cons, Option.mem_def, Option.some.injEq] at hl
      subst hl
      exact (kvLine_facts dd k v hk hsc).2.2.2
    · have hnsc : isScalar v = false := by
        cases v <;> first | rfl | simp [wfValue] at hcv
      rw [objLines_cons_cont k v r dd hnsc] at hl
      simp only [List.head?_cons, Option.mem_def, Option.some.injEq] at hl
      subst hl
      exact (keyLine_facts dd k hk).2.2.2

/-- The first line of a non-empty array band sits exactly at the band
depth. -/
theorem arrLines_head_count (its : List Value) (dd : Nat)
    (hwf : wfItems its = true) :
    ∀ l ∈ (arrLines its dd).head?, count_leading_tabs l = dd := by
  cases its with
  | nil =>
    intro l hl
    simp [arrLines] at hl
  | cons v r =>
    simp only [wfItems, Bool.and_eq_true] at hwf
    intro l hl
    rw [arrLines_cons_scalar v r dd (wfScalar_isScalar v hwf.1)] at hl
    simp only [List.head?_cons, Option.mem_def, Option.some.injEq] at hl
    subst hl
    exact (scalarLine_facts dd v hwf.1).2.2.2

/-- The child lookahead fails when the next line is at the band depth or
shallower (or the range is empty). -/
theorem hasChildAt_shallow (jls : List (Nat × Line)) (dd : Nat)
    (h : ∀ y ∈ jls.head?, count_leading_tabs y.2 ≤ dd) :
    hasChildAt jls dd = false := by
  cases jls with
  | nil => rfl
  | cons y r =>
    obtain ⟨n, l⟩ := y
    have hc := h (n, l) rfl
    unfold hasChildAt
    dsimp only
    rw [if_pos hc]

/-- The child lookahead succeeds when the next line is exactly one level
deeper. -/
theorem hasChildAt_deep (n : Nat) (l : Line) (r : List (Nat × Line))
    (dd : Nat) (h : count_leading_tabs l = dd + 1) :
    hasChildAt ((n, l) :: r) dd = true := by
  unfold hasChildAt
  dsimp only
  rw [if_neg (by omega), if_pos h]

end Taml

namespace Taml

/-- On the line image of a well-formed array band, the determination loop
reaches the end without evidence of an object: the band stays an array and
the state is untouched. -/
theorem scanBand_arr (its : List Value) :
    ∀ (dd : Nat) (jls : List (Nat × Line)) (st : PState),
    wfItems its = true → jls.map Prod.snd = arrLines its dd →
    scanBand jls ((dd : Int) - 1) st = (true, st) := by
  induction its with
  | nil =>
    intro dd jls st _ hmap
    have hj : jls = [] := by
      simp only [arrLines, List.map_eq_nil] at hmap
      exact hmap
    subst hj
    rfl
  | cons w r ih =>
    intro dd jls st hwi hmap
    simp only [wfItems, Bool.and_eq_true] at hwi
    obtain ⟨hsc, hrest⟩ := hwi
    rw [arrLines_cons_scalar w r dd (wfScalar_isScalar w hsc)] at hmap
    rw [List.map_eq_cons_iff] at hmap
    obtain ⟨x, xs, hjls, hxl, hxs⟩ := hmap
    subst hjls
    obtain ⟨n, l⟩ := x
    have hl : l = indentChars dd ++ serialize_value w dd := hxl
    obtain ⟨f1, f2, f3, f4⟩ := scalarLine_facts dd w hsc
    obtain ⟨s1, s2, s3, s4, s5⟩ := scalarSer_facts w dd hsc
    have hcount : count_leading_tabs l = dd := by
      rw [hl]
      exact f4
    have hdrop : l.drop dd = serialize_value w dd := by
      rw [hl]
      have hda := drop_indent_append dd (serialize_value w dd)
        (head_ne_tab _ s3)
      rwa [f4] at hda
    have hchild : hasChildAt xs dd = false := by
      apply hasChildAt_shallow
      intro y hy
      have hh : (arrLines r dd).head? = some y.2 := by
        rw [← hxs, List.head?_map, hy, Option.map_some']
      have := arrLines_head_count r dd hrest y.2 hh
      omega
    unfold scanBand
    dsimp only
    rw [hcount, if_neg (by omega), if_neg (by omega), hdrop,
      contains_false_of_not_mem _ _ s3, if_neg Bool.false_ne_true,
      hchild, if_neg Bool.false_ne_true]
    exact ih dd xs st hrest hxs

/-- On the line image of a well-formed array band, the array build loop
reproduces the item list (scalars round-trip through their literal forms)
and leaves the permissive default state untouched. -/
theorem buildArr_arr (its : List Value) :
    ∀ (dd : Nat) (jls : List (Nat × Line)),
    wfItems its = true → jls.map Prod.snd = arrLines its dd →
    buildArr jls ((dd : Int) - 1) ⟨false, true, none⟩
      = (revItems its, ⟨false, true, none⟩) := by
  induction its with
  | nil =>
    intro dd jls _ hmap
    have hj : jls = [] := by
      simp only [arrLines, List.map_eq_nil] at hmap
      exact hmap
    subst hj
    unfold buildArr
    simp [revItems]
  | cons w r ih =>
    intro dd jls hwi hmap
    simp only [wfItems, Bool.and_eq_true] at hwi
    obtain ⟨hsc, hrest⟩ := hwi
    rw [arrLines_cons_scalar w r dd (wfScalar_isScalar w hsc)] at hmap
    rw [List.map_eq_cons_iff] at hmap
    obtain ⟨x, xs, hjls, hxl, hxs⟩ := hmap
    subst hjls
    obtain ⟨n, l⟩ := x
    have hl : l = indentChars dd ++ serialize_value w dd := hxl
    obtain ⟨f1, f2, f3, f4⟩ := scalarLine_facts dd w hsc
    obtain ⟨s1, s2, s3, s4, s5⟩ := scalarSer_facts w dd hsc
    have hcount : count_leading_tabs l = dd := by
      rw [hl]
      exact f4
    have hdrop : l.drop dd = serialize_value w dd := by
      rw [hl]
      have hda := drop_indent_append dd (serialize_value w dd)
        (head_ne_tab _ s3)
      rwa [f4] at hda
    have hchild : hasChildAt xs dd = false := by
      apply hasChildAt_shallow
      intro y hy
      have hh : (arrLines r dd).head? = some y.2 := by
        rw [← hxs, List.head?_map, hy, Option.map_some']
      have := arrLines_head_count r dd hrest y.2 hh
      omega
    unfold buildArr
    dsimp only
    rw [hcount, if_neg (by omega), if_neg (by omega), hdrop, s5,
      hchild, if_neg Bool.false_ne_true]
    rw [convert_roundtrip w dd hsc]
    rw [ih dd xs hrest hxs]
    simp [revItems, revObj_scalar w (wfScalar_isScalar w hsc)]

/-- On the line image of a non-empty well-formed object band, the
determination loop classifies the band as an object at its first line,
leaving the state untouched: a scalar first pair puts a tab in the content,
a container first pair has a child exactly one level deeper. -/
theorem scanBand_obj (ps : List (Line × Value)) (dd : Nat)
    (jls : List (Nat × Line)) (st : PState)
    (hne : ps ≠ []) (hwf : wfPairs ps = true)
    (hmap : jls.map Prod.snd = objLines ps dd) :
    scanBand jls ((dd : Int) - 1) st = (false, st) := by
  cases ps with
  | nil => exact absurd rfl hne
  | cons p r =>
    obtain ⟨k, v⟩ := p
    simp only [wfPairs, Bool.and_eq_true, Bool.or_eq_true] at hwf
    obtain ⟨⟨hk, hv⟩, hrest⟩ := hwf
    obtain ⟨h1, h2, h3, h4, h5⟩ := wfKey_unpack k hk
    rcases hv with hsc | hcv
    · rw [objLines_cons_scalar k v r dd (wfScalar_isScalar v hsc)] at hmap
      rw [List.map_eq_cons_iff] at hmap
      obtain ⟨x, xs, hjls, hxl, hxs⟩ := hmap
      subst hjls
      obtain ⟨n, l⟩ := x
      have hl : l = indentChars dd ++ k ++ '\t' :: serialize_value v dd := hxl
      obtain ⟨f1, f2, f3, f4⟩ := kvLine_facts dd k v hk hsc
      have hhead : ¬((k ++ '\t' :: serialize_value v dd).head? = some '\t') :=
        head_append_ne_tab k _ h1 h2
      have hcount : count_leading_tabs l = dd := by
        rw [hl]
        exact f4
      have f4a : count_leading_tabs
          (indentChars dd ++ (k ++ '\t' :: serialize_value v dd)) = dd := by
        rw [← List.append_assoc]
        exact f4
      have hdrop : l.drop dd = k ++ '\t' :: serialize_value v dd := by
        rw [hl, List.append_assoc]
        have hda := drop_indent_append dd (k ++ '\t' :: serialize_value v dd)
          hhead
        rwa [f4a] at hda
      unfold scanBand
      dsimp only
      rw [hcount, if_neg (by omega), if_neg (by omega), hdrop,
        contains_true_of_mem _ '\t' (by simp), if_pos rfl]
    · have hnsc : isScalar v = false := by
        cases v <;> first | rfl | simp [wfValue] at hcv
      rw [objLines_cons_cont k v r dd hnsc] at hmap
      rw [List.map_eq_cons_iff] at hmap
      obtain ⟨x, xs, hjls, hxl, hxs⟩ := hmap
      subst hjls
      obtain ⟨n, l⟩ := x
      have hl : l = indentChars dd ++ k := hxl
      obtain ⟨f1, f2, f3, f4⟩ := keyLine_facts dd k hk
      have hcount : count_leading_tabs l = dd := by
        rw [hl]
        exact f4
      have hdrop : l.drop dd = k := by
        rw [hl]
        have hda := drop_indent_append dd k (head_ne_tab k h2)
        rwa [f4] at hda
      obtain ⟨g1, g2, g3⟩ := lines_bundle (sizeV v) v le_rfl hcv (dd + 1)
      obtain ⟨l₀, ls₀, hval, hc₀⟩ := g2
      rw [hval, List.cons_append] at hxs
      rw [List.map_eq_cons_iff] at hxs
      obtain ⟨x₂, xs₂, hxs₂, hxl₂, _⟩ := hxs
      subst hxs₂
      obtain ⟨n₂, l₂⟩ := x₂
      have hl₂ : l₂ = l₀ := hxl₂
      have hchild : hasChildAt ((n₂, l₂) :: xs₂) dd = true := by
        apply hasChildAt_deep
        rw [hl₂, hc₀]
      unfold scanBand
      dsimp only
      rw [hcount, if_neg (by omega), if_neg (by omega), hdrop,
        contains_false_of_not_mem _ _ h2, if_neg Bool.false_ne_true,
        hchild, if_pos rfl]

end Taml

namespace Taml

/-- One serialize/parse round trip, on the parser side: `parse_lines` on
the line image of a well-formed container band at depth `d`, with parent
depth `d - 1` and the permissive default state, rebuilds the value up to
the deep object-order reversal, and touches neither the diagnostic nor the
options. -/
theorem parse_roundtrip : ∀ N : Nat, ∀ (ils : List (Nat × Line)) (v : Value)
    (d : Nat), ils.length ≤ N → wfValue v = true →
    ils.map Prod.snd = valLines v d →
    parse_lines ils ((d : Int) - 1) ⟨false, true, none⟩
      = (some (revObj v), ⟨false, true, none⟩) := by
  intro N
  induction N with
  | zero =>
    intro ils v d hlen hwf hmap
    exfalso
    obtain ⟨l₀, ls₀, he, _⟩ := (lines_bundle (sizeV v) v le_rfl hwf d).2.1
    have hnil : ils = [] := List.length_eq_zero.mp (by omega)
    subst hnil
    rw [he] at hmap
    exact List.noConfusion hmap
  | succ N ihN =>
    have hobjBuild : ∀ ps : List (Line × Value), ∀ (dd : Nat)
        (jls : List (Nat × Line)) (acc : List (Line × Value)),
        jls.length ≤ N + 1 → wfPairs ps = true → keysDistinct ps = true →
        (∀ k' ∈ ps.map Prod.fst, containsKey acc k' = false) →
        jls.map Prod.snd = objLines ps dd →
        buildObj jls ((dd : Int) - 1) ⟨false, true, none⟩ acc
          = ((revPairs ps).reverse ++ acc, ⟨false, true, none⟩) := by
      intro ps
      induction ps with
      | nil =>
        intro dd jls acc _ _ _ _ hmap
        have hj : jls = [] := by
          simp only [objLines, List.map_eq_nil] at hmap
          exact hmap
        subst hj
        unfold buildObj
        simp [revPairs]
      | cons p r ih =>
        obtain ⟨k, v⟩ := p
        intro dd jls acc hlen hwf hkd hfresh hmap
        simp only [wfPairs, Bool.and_eq_true, Bool.or_eq_true] at hwf
        obtain ⟨⟨hk, hv⟩, hrest⟩ := hwf
        obtain ⟨hkf, hkdr⟩ := keysDistinct_unpack k v r hkd
        obtain ⟨h1, h2, h3, h4, h5⟩ := wfKey_unpack k hk
        have hfk : containsKey acc k = false :=
          hfresh k (List.mem_cons_self _ _)
        have hfreshr : ∀ (w : Value), ∀ k' ∈ r.map Prod.fst,
            containsKey ((k, w) :: acc) k' = false := by
          intro w k' hk'
          have hne : k ≠ k' := by
            intro he
            have : containsKey r k = true :=
              (containsKey_mem r k).mpr (he ▸ hk')
            rw [this] at hkf
            exact Bool.noConfusion hkf
          exact containsKey_cons_false k k' w acc hne
            (hfresh k' (List.mem_cons_of_mem _ hk'))
        rcases hv with hsc | hcv
        · rw [objLines_cons_scalar k v r dd (wfScalar_isScalar v hsc)] at hmap
          rw [List.map_eq_cons_iff] at hmap
          obtain ⟨x, xs, hjls, hxl, hxs⟩ := hmap
          subst hjls
          obtain ⟨n, l⟩ := x
          have hl : l = indentChars dd ++ k ++ '\t' :: serialize_value v dd :=
            hxl
          obtain ⟨f1, f2, f3, f4⟩ := kvLine_facts dd k v hk hsc
          obtain ⟨s1, s2, s3, s4, s5⟩ := scalarSer_facts v dd hsc
          have hhead :
              ¬((k ++ '\t' :: serialize_value v dd).head? = some '\t') :=
            head_append_ne_tab k _ h1 h2
          have hcount : count_leading_tabs l = dd := by
            rw [hl]
            exact f4
          have f4a : count_leading_tabs
              (indentChars dd ++ (k ++ '\t' :: serialize_value v dd))
                = dd := by
            rw [← List.append_assoc]
            exact f4
          have hdrop : l.drop dd = k ++ '\t' :: serialize_value v dd := by
            rw [hl, List.append_assoc]
            have hda := drop_indent_append dd
              (k ++ '\t' :: serialize_value v dd) hhead
            rwa [f4a] at hda
          have hlen' : xs.length ≤ N + 1 := by
            simp only [List.length_cons] at hlen
            omega
          unfold buildObj
          dsimp only
          rw [hcount, if_neg (by omega), if_neg (by omega), hdrop]
          rw [splitAtFirstTab_append k _ h2]
          dsimp only
          rw [if_neg (by simp)]
          rw [← h5]
          rw [dropWhile_no_tab _ s3, s5]
          rw [convert_roundtrip v dd hsc]
          rw [objectSetPairs_fresh acc k v hfk]
          rw [ih dd xs ((k, v) :: acc) hlen' hrest hkdr (hfreshr v) hxs]
          simp [revPairs, revObj_scalar v (wfScalar_isScalar v hsc),
            List.append_assoc]
        · have hnsc : isScalar v = false := by
            cases v <;> first | rfl | simp [wfValue] at hcv
          rw [objLines_cons_cont k v r dd hnsc] at hmap
          rw [List.map_eq_cons_iff] at hmap
          obtain ⟨x, xs, hjls, hxl, hxs⟩ := hmap
          subst hjls
          obtain ⟨n, l⟩ := x
          have hl : l = indentChars dd ++ k := hxl
          obtain ⟨f1k, f2k, f3k, f4k⟩ := keyLine_facts dd k hk
          have hcount : count_leading_tabs l = dd := by
            rw [hl]
            exact f4k
          have hdrop : l.drop dd = k := by
            rw [hl]
            have hda := drop_indent_append dd k (head_ne_tab k h2)
            rwa [f4k] at hda
          rw [List.map_eq_append_iff] at hxs
          obtain ⟨A, B, hxsAB, hAmap, hBmap⟩ := hxs
          subst hxsAB
          obtain ⟨g1, g2, g3⟩ := lines_bundle (sizeV v) v le_rfl hcv (dd + 1)
          have hAdeep : ∀ a ∈ A, isDeeper dd a = true := by
            intro a ha
            have hmem : a.2 ∈ valLines v (dd + 1) := by
              rw [← hAmap]
              exact List.mem_map_of_mem _ ha
            have := (g1 a.2 hmem).2.2.2
            simp only [isDeeper, decide_eq_true_eq]
            omega
          have hBhead : ∀ b ∈ B.head?, isDeeper dd b = false := by
            intro b hb
            have hh : (objLines r dd).head? = some b.2 := by
              rw [← hBmap, List.head?_map, hb, Option.map_some']
            have := objLines_head_count r dd hrest b.2 hh
            simp only [isDeeper, decide_eq_false_iff_not]
            omega
          obtain ⟨htake, hdropW⟩ :=
            takeWhile_eq_of_split (isDeeper dd) A B hAdeep hBhead
          have hAlen : A.length ≤ N := by
            simp only [List.length_cons, List.length_append] at hlen
            omega
          have hBlen : B.length ≤ N + 1 := by
            simp only [List.length_cons, List.length_append] at hlen
            omega
          have hcall := ihN A v (dd + 1) hAlen hcv hAmap
          have hcast : (((dd + 1 : Nat)) : Int) - 1 = (dd : Int) := by
            push_cast
            omega
          rw [hcast] at hcall
          unfold buildObj
          dsimp only
          rw [hcount, if_neg (by omega), if_neg (by omega), hdrop]
          rw [splitAtFirstTab_none k h2]
          dsimp only
          rw [← h5]
          rw [htake, hdropW, hcall]
          dsimp only
          rw [objectSetPairs_fresh acc k (revObj v) hfk]
          rw [ih dd B ((k, revObj v) :: acc) hBlen hrest hkdr
            (hfreshr (revObj v)) hBmap]
          simp [revPairs, List.append_assoc]
    intro ils v d hlen hwf hmap
    cases v with
    | null => simp [wfValue] at hwf
    | bool b => simp [wfValue] at hwf
    | int n => simp [wfValue] at hwf
    | float q => simp [wfValue] at hwf
    | str s => simp [wfValue] at hwf
    | obj ps =>
      obtain ⟨_, hhead, _⟩ :=
        lines_bundle (sizeV (Value.obj ps)) _ le_rfl hwf d
      obtain ⟨l₀, ls₀, hvl, _⟩ := hhead
      simp only [valLines] at hvl hmap
      simp only [wfValue, Bool.and_eq_true, Bool.not_eq_true'] at hwf
      obtain ⟨⟨hne, hkd⟩, hwp⟩ := hwf
      cases ils with
      | nil =>
        rw [hvl] at hmap
        exact List.noConfusion hmap
      | cons x xs =>
        unfold parse_lines
        dsimp only
        rw [scanBand_obj ps d (x :: xs) _ (by simpa using hne) hwp hmap]
        dsimp only
        rw [if_neg Bool.false_ne_true]
        rw [hobjBuild ps d (x :: xs) [] hlen hwp hkd (fun k' _ => rfl) hmap]
        simp [revObj]
    | arr its =>
      obtain ⟨_, hhead, _⟩ :=
        lines_bundle (sizeV (Value.arr its)) _ le_rfl hwf d
      obtain ⟨l₀, ls₀, hvl, _⟩ := hhead
      simp only [valLines] at hvl hmap
      simp only [wfValue, Bool.and_eq_true, Bool.not_eq_true'] at hwf
      obtain ⟨hne, hwi⟩ := hwf
      cases ils with
      | nil =>
        rw [hvl] at hmap
        exact List.noConfusion hmap
      | cons x xs =>
        unfold parse_lines
        dsimp only
        rw [scanBand_arr its d (x :: xs) _ hwi hmap]
        dsimp only
        rw [if_pos rfl]
        rw [buildArr_arr its d (x :: xs) hwi hmap]
        simp [revObj]

end Taml

namespace Taml

/-- C1 (amended): for every well-formed tree (non-empty containers;
non-empty keys free of tabs, newlines, a leading `#` and trailing
whitespace, pairwise distinct per object; string leaves empty or free of
the sentinel, boolean and numeric literal forms, tabs, newlines, a leading
`#` and trailing whitespace; no float leaves; arrays of such scalars only;
the root a container), parsing the serialized text with default options
yields exactly the tree with every object's pair order reversed
(`taml_object_set` prepends new keys), and an empty diagnostic.  The
spec's claim of an order-preserving identity round trip is refuted by
`c1_counterexample`. -/
theorem c1_reverse_round_trip (v : Value) (h : wfValue v = true) :
    taml_parse (taml_stringify_value v) false true
      = ⟨some (revObj v), none⟩ := by
  obtain ⟨g1, g2, g3⟩ := lines_bundle (sizeV v) v le_rfl h 0
  unfold taml_parse taml_stringify_value
  dsimp only
  have hkept : keptOf (serialize_value v 0) = valLines v 0 := by
    rw [g3]
    exact keptOf_joinLines _ (fun l hl =>
      ⟨(g1 l hl).1, (g1 l hl).2.1, (g1 l hl).2.2.1⟩)
  rw [hkept]
  have henum : (valLines v 0).enum.map Prod.snd = valLines v 0 :=
    List.enum_map_snd _
  have hp := parse_roundtrip ((valLines v 0).enum.length)
    ((valLines v 0).enum) v 0 le_rfl h henum
  rw [show ((0 : Nat) : Int) - 1 = (-1 : Int) from by norm_num] at hp
  rw [hp]

/-- Witness: the reversed round trip at a concrete two-key object. -/
theorem c1_reverse_round_trip_witness :
    wfValue (Value.obj [(['a'], Value.int 1), (['b'], Value.str ['x'])])
        = true ∧
    taml_parse (taml_stringify_value
        (Value.obj [(['a'], Value.int 1), (['b'], Value.str ['x'])]))
        false true
      = ⟨some (revObj
          (Value.obj [(['a'], Value.int 1), (['b'], Value.str ['x'])])),
          none⟩ := by
  have hwf : wfValue
      (Value.obj [(['a'], Value.int 1), (['b'], Value.str ['x'])]) = true := by
    simp +decide [wfValue, wfPairs, wfKey, wfScalar, wfStr, keysDistinct,
      containsKey, lookupPairs, is_numeric, numScan, is_boolean,
      trim_trailing_whitespace, isspaceC]
  exact ⟨hwf, c1_reverse_round_trip _ hwf⟩

end Taml
